import Mathlib

/-!
# Verification of the Tundra `JSONValue` type (JSON.h)

A shallow embedding of `Tundra::JSONValue` — the tagged-union JSON value with
its parser and serializer — together with proofs of the specification's
claims about it.

Modelling conventions:
* Byte strings (`Urho3D::String`, parser input, serializer output) are lists
  of byte values (`List Nat`, each morally `< 256`).  `char` on the targeted
  platforms is signed, so comparisons such as `dest > 0x20` in `NextChar`
  are modelled through `sbyte`, the signed reading of a byte.
* The union `JSONData` plus the `type` tag of the C++ class become one
  inductive type `JSONValue`: exactly one live payload per tag, which is the
  documented invariant of the class.
* `double` payloads are modelled as exact rationals (`ℚ`): every non-NaN,
  non-infinite double denotes a rational (in fact one with a finite decimal
  expansion), and the claims under study exclude NaN/Infinity.
* Member functions that mutate the receiver become functions from the old
  value to the new value; `const` member functions are pure functions.  In
  this pure embedding no accessor can modify its receiver, which is the
  immutability part of the read-access claims.
* Functions whose bodies live in `JSON.cpp` (not part of this excerpt —
  only JSON.h is) are modelled from the spec and from the doc comments of
  their declarations in JSON.h; each such definition carries a doc comment
  saying so.  Functions defined inline in JSON.h (`NextChar`, the typed
  getters, the `Is*` predicates) are translated directly.
-/

/-- Byte strings: `Urho3D::String` contents, parser input and serializer
output, as a list of byte values. -/
abbrev ByteStr := List Nat

/-- `enum JSONType` from JSON.h. -/
inductive JSONType where
  | JSON_NULL
  | JSON_BOOL
  | JSON_NUMBER
  | JSON_STRING
  | JSON_ARRAY
  | JSON_OBJECT
deriving DecidableEq

/-- `class JSONValue`: the type tag together with its single live payload.
`JSONArray` is `Vector<JSONValue>` (a list), `JSONObject` is
`HashMap<String, JSONValue>` (an association list whose operations keep keys
unique, mirroring the hash map's semantics). -/
inductive JSONValue where
  | null
  | bool (b : Bool)
  | number (q : ℚ)
  | str (s : ByteStr)
  | array (elems : List JSONValue)
  | object (members : List (ByteStr × JSONValue))

namespace Tundra

open JSONValue

/-- `JSONValue::Type()`: the tag the value currently holds. -/
def typeOf : JSONValue → JSONType
  | .null => .JSON_NULL
  | .bool _ => .JSON_BOOL
  | .number _ => .JSON_NUMBER
  | .str _ => .JSON_STRING
  | .array _ => .JSON_ARRAY
  | .object _ => .JSON_OBJECT

/-- `IsNull()`: `type == JSON_NULL`. -/
def isNull (v : JSONValue) : Bool := typeOf v = .JSON_NULL
/-- `IsBool()`: `type == JSON_BOOL`. -/
def isBool (v : JSONValue) : Bool := typeOf v = .JSON_BOOL
/-- `IsNumber()`: `type == JSON_NUMBER`. -/
def isNumber (v : JSONValue) : Bool := typeOf v = .JSON_NUMBER
/-- `IsString()`: `type == JSON_STRING`. -/
def isString (v : JSONValue) : Bool := typeOf v = .JSON_STRING
/-- `IsArray()`: `type == JSON_ARRAY`. -/
def isArray (v : JSONValue) : Bool := typeOf v = .JSON_ARRAY
/-- `IsObject()`: `type == JSON_OBJECT`. -/
def isObject (v : JSONValue) : Bool := typeOf v = .JSON_OBJECT

/-- The static sentinel `JSONValue::EMPTY`, a null value. -/
def EMPTY : JSONValue := .null
/-- The static sentinel `JSONValue::emptyJSONArray`. -/
def emptyJSONArray : List JSONValue := []
/-- The static sentinel `JSONValue::emptyJSONObject`. -/
def emptyJSONObject : List (ByteStr × JSONValue) := []

/-- `GetBool()`: `type == JSON_BOOL ? data.boolValue : false` (inline in
JSON.h). -/
def getBool : JSONValue → Bool
  | .bool b => b
  | _ => false

/-- `GetNumber()`: `type == JSON_NUMBER ? data.numberValue : 0.0` (inline in
JSON.h). -/
def getNumber : JSONValue → ℚ
  | .number q => q
  | _ => 0

/-- `GetString()`: the string payload, or `String::EMPTY` on type mismatch
(inline in JSON.h). -/
def getString : JSONValue → ByteStr
  | .str s => s
  | _ => []

/-- `GetArray()`: the array payload, or `emptyJSONArray` on type mismatch
(inline in JSON.h). -/
def getArray : JSONValue → List JSONValue
  | .array a => a
  | _ => emptyJSONArray

/-- `GetObject()`: the object payload, or `emptyJSONObject` on type mismatch
(inline in JSON.h). -/
def getObject : JSONValue → List (ByteStr × JSONValue)
  | .object o => o
  | _ => emptyJSONObject

/-- Modelled from the spec: `Size()` (body in JSON.cpp, absent here) —
"Return number of values for objects or arrays, or 0 otherwise." -/
def size : JSONValue → Nat
  | .array a => a.length
  | .object o => o.length
  | _ => 0

/-- Modelled from the spec: `IsEmpty()` (body in JSON.cpp, absent here) —
"Return whether an object or array is empty.  Return false if not an object
or array." -/
def isEmpty : JSONValue → Bool
  | .array a => a.isEmpty
  | .object o => o.isEmpty
  | _ => false

/-- First entry of an association list with the given key, if any
(`HashMap::Find`). -/
def alistFind (k : ByteStr) : List (ByteStr × JSONValue) → Option JSONValue
  | [] => none
  | (k', x) :: t => if k' = k then some x else alistFind k t

/-- Whether an association list has an entry with the given key
(`HashMap::Contains`). -/
def hasKey (k : ByteStr) : List (ByteStr × JSONValue) → Bool
  | [] => false
  | (k', _) :: t => k' = k || hasKey k t

/-- Insertion into an association list with the hash map's overwrite
semantics: replace the value of an existing entry with the same key, else
append a new entry. -/
def objInsert : List (ByteStr × JSONValue) → ByteStr → JSONValue →
    List (ByteStr × JSONValue)
  | [], k, x => [(k, x)]
  | (k', y) :: t, k, x =>
      if k' = k then (k', x) :: t else (k', y) :: objInsert t k x

/-- Remove every entry with the given key (`HashMap::Erase`; under the
unique-keys invariant there is at most one). -/
def objErase (k : ByteStr) (o : List (ByteStr × JSONValue)) :
    List (ByteStr × JSONValue) :=
  o.filter (fun p => decide (p.1 ≠ k))

/-- Modelled from the spec: `Push(value)` (body in JSON.cpp) — "Push a value
at the end.  Becomes an array if was not before." -/
def push (v : JSONValue) (x : JSONValue) : JSONValue :=
  .array (getArray v ++ [x])

/-- Modelled from the spec: `Insert(index, value)` (body in JSON.cpp) —
"Insert a value at position.  Becomes an array if was not before."
Positions past the end append, as `Vector::Insert` clamps to the end. -/
def insertAt (v : JSONValue) (i : Nat) (x : JSONValue) : JSONValue :=
  .array ((getArray v).take i ++ x :: (getArray v).drop i)

/-- Modelled from the spec: `Pop()` (body in JSON.cpp) — "Remove the last
value.  No-op if not an array." -/
def pop (v : JSONValue) : JSONValue :=
  match v with
  | .array a => .array a.dropLast
  | _ => v

/-- Modelled from the spec: `Erase(pos, length)` (body in JSON.cpp) —
"Remove indexed value(s).  No-op if not an array." -/
def eraseAt (v : JSONValue) (pos len : Nat) : JSONValue :=
  match v with
  | .array a => .array (a.take pos ++ a.drop (pos + len))
  | _ => v

/-- Modelled from the spec: `Insert(pair)` (body in JSON.cpp) — "Insert an
associative value.  Becomes an object if was not before."  Duplicate keys
overwrite (hash map semantics). -/
def insertPair (v : JSONValue) (k : ByteStr) (x : JSONValue) : JSONValue :=
  .object (objInsert (getObject v) k x)

/-- Modelled from the spec: `Erase(key)` (body in JSON.cpp) — "Remove an
associative value.  No-op if not an object." -/
def eraseKey (v : JSONValue) (k : ByteStr) : JSONValue :=
  match v with
  | .object o => .object (objErase k o)
  | _ => v

/-- Modelled from the spec: `Clear()` (body in JSON.cpp) — "Clear array or
object.  No-op otherwise." -/
def clear (v : JSONValue) : JSONValue :=
  match v with
  | .array _ => .array []
  | .object _ => .object []
  | _ => v

/-- `SetEmptyArray()`. -/
def setEmptyArray (_ : JSONValue) : JSONValue := .array []
/-- `SetEmptyObject()`. -/
def setEmptyObject (_ : JSONValue) : JSONValue := .object []
/-- `SetNull()`. -/
def setNull (_ : JSONValue) : JSONValue := .null

/-- Modelled from the spec: `Contains(key)` (body in JSON.cpp) — "Return
whether has an associative value." -/
def contains (v : JSONValue) (k : ByteStr) : Bool :=
  hasKey k (getObject v)

/-- Modelled from the spec: the state of the receiver after
`operator[](size_t)` is evaluated and the element written through (the
returned reference models in-place update by `f`): "Index as an array.
Becomes an array if was not before" — a non-array receiver is first reset to
an empty array, discarding its payload, then indexed.  The array is extended
with null values up to the index when needed, which is what makes the spec's
own example `v["a"][0] = 5` meaningful on a fresh array. -/
def updIdx (v : JSONValue) (i : Nat) (f : JSONValue → JSONValue) : JSONValue :=
  let a := getArray v
  let a := if i < a.length then a else a ++ List.replicate (i + 1 - a.length) .null
  .array (a.set i (f (a.getD i .null)))

/-- Modelled from the spec: the state of the receiver after
`operator[](const String&)` is evaluated and the element written through:
"Index as an object.  Becomes an object if was not before" — a non-object
receiver is first reset to an empty object, discarding its payload; the hash
map's `operator[]` then finds the key's entry, inserting a null one when the
key is absent, and the returned reference models in-place update by `f`. -/
def updKey (v : JSONValue) (k : ByteStr) (f : JSONValue → JSONValue) :
    JSONValue :=
  let o := getObject v
  .object (objInsert o k (f ((alistFind k o).getD .null)))

/-- The signed reading of a byte: `char` is signed on the platforms this
code targets, so a byte `b ≥ 0x80` reads as `b - 256 < 0`. -/
def sbyte (b : Nat) : Int :=
  if b < 128 then (b : Int) else (b : Int) - 256

/-- The loop body of `JSONValue::NextChar` (inline in JSON.h), made
structural on the remaining extent `endp - pos` (the C loop strictly
advances `pos` toward `endp`, so this fuel is exact).  State is the cursor
`pos` into `buf`; the result pairs the delivered byte, if any, with the new
cursor.  `dest > 0x20` compares the signed char value. -/
def nextCharAux (buf : List Nat) (skipWhiteSpace : Bool) :
    Nat → Nat → Nat → Option Nat × Nat
  | 0, pos, _ => (none, pos)
  | fuel + 1, pos, endp =>
      if pos < endp then
        if !skipWhiteSpace || decide (32 < sbyte (buf.getD pos 0)) then
          (some (buf.getD pos 0), pos + 1)
        else nextCharAux buf skipWhiteSpace fuel (pos + 1) endp
      else (none, pos)

/-- `JSONValue::NextChar` on a byte buffer with cursor `pos` and end `endp`:
returns the delivered byte (or none when the stream ended) and the advanced
cursor. -/
def nextChar (buf : List Nat) (skipWhiteSpace : Bool) (pos endp : Nat) :
    Option Nat × Nat :=
  nextCharAux buf skipWhiteSpace (endp - pos) pos endp

/-- A byte `NextChar` consumes as insignificant whitespace when skipping:
its signed char value is at most `0x20`, i.e. the byte is `≤ 0x20` or
`≥ 0x80`. -/
def wsByte (b : Nat) : Bool := decide (sbyte b ≤ 32)

/-- The parser's whitespace skipping before a token: repeated `NextChar`
with `skipWhiteSpace` set, on the remaining input. -/
def skipWs : List Nat → List Nat
  | [] => []
  | b :: t => if wsByte b then skipWs t else b :: t

/-- ASCII decimal digit test on a byte. -/
def isDigitB (b : Nat) : Bool := 48 ≤ b && b ≤ 57

/-- The longest leading run of decimal digits, and the remainder. -/
def takeDigits : List Nat → List Nat × List Nat
  | [] => ([], [])
  | b :: t =>
      if isDigitB b then
        let (ds, r) := takeDigits t
        (b :: ds, r)
      else ([], b :: t)

/-- The number denoted by a digit run, most significant first. -/
def digitsVal (ds : List Nat) : Nat :=
  ds.foldl (fun acc b => acc * 10 + (b - 48)) 0

/-- Decimal digit bytes of `n`, most significant first; fuel-structural
(`fuel = n + 1` always suffices) so that it reduces definitionally. -/
def natDigitsAux : Nat → Nat → List Nat
  | 0, _ => []
  | fuel + 1, n =>
      if n < 10 then [48 + n]
      else natDigitsAux fuel (n / 10) ++ [48 + n % 10]

/-- Decimal digit bytes of `n`, most significant first. -/
def natDigits (n : Nat) : List Nat := natDigitsAux (n + 1) n

/-- The first scale `k` (searching upward from the given start, within
`fuel` steps) such that `10 ^ k` is a multiple of `den`. -/
def firstScale (den : Nat) : Nat → Nat → Nat
  | 0, k => k
  | fuel + 1, k => if 10 ^ k % den = 0 then k else firstScale den fuel (k + 1)

/-- The decimal scale of a rational: the least `k` with `q.den ∣ 10 ^ k`,
when one exists (searching up to `q.den` suffices, since `q.den = 2^a · 5^b`
forces `a, b ≤ q.den`). -/
def decScale (q : ℚ) : Nat := firstScale q.den (q.den + 1) 0

/-- Whether `q` has a finite decimal expansion.  Every non-NaN, non-infinite
double does: it is `m / 2^e`, and `2^e ∣ 10^e`. -/
def finiteDec (q : ℚ) : Bool := 10 ^ decScale q % q.den = 0

/-- The decimal mantissa of `q` at its decimal scale: `q · 10 ^ decScale q`,
computed exactly when `finiteDec q` holds. -/
def decMant (q : ℚ) : Int := q.num * ((10 ^ decScale q) / q.den : Nat)

/-- The digit bytes of the decimal `n / 10 ^ k`: plain digits when `k = 0`
("integral values print without a decimal point"), else the digits of `n`
padded with leading zeros to at least `k + 1` digits, with `'.'` inserted
`k` places from the right. -/
def decDigits (n k : Nat) : List Nat :=
  if k = 0 then natDigits n
  else
    let ds := List.replicate (k + 1 - (natDigits n).length) 48 ++ natDigits n
    ds.take (ds.length - k) ++ 46 :: ds.drop (ds.length - k)

/-- Modelled from the spec: the serializer's number output (JSON.cpp) —
"Number → shortest round-trippable decimal text (integral values with no
fractional part print without a decimal point)."  The embedding prints the
exact decimal expansion of the rational (the double's value): an optional
`'-'`, then the digits of the decimal mantissa with the point at the decimal
scale.  ("Shortest" trims this to the fewest digits that still parse back to
the same double — a floating-point refinement that does not affect the value
round-trip, which is what is proved here.) -/
def numBytes (q : ℚ) : ByteStr :=
  (if q.num < 0 then [45] else []) ++ decDigits (decMant q).natAbs (decScale q)

/-- Modelled from the spec: the exponent part of number lexing (JSON.cpp) —
"optional exponent (`e`/`E`, optional sign, digits)"; digits are required
once `e`/`E` is consumed, else the number token is truncated and parsing
fails.  `base` is the value before the exponent is applied. -/
def parseExp (base : ℚ) (cs : List Nat) : Option (ℚ × List Nat) :=
  match cs with
  | b :: r =>
      if b = 101 ∨ b = 69 then
        let (sgnNeg, r1) : Bool × List Nat :=
          match r with
          | b2 :: r' =>
              if b2 = 43 then (false, r')
              else if b2 = 45 then (true, r')
              else (false, b2 :: r')
          | [] => (false, [])
        let (eds, r2) := takeDigits r1
        if eds = [] then none
        else some (if sgnNeg then base / 10 ^ digitsVal eds
                   else base * 10 ^ digitsVal eds, r2)
      else some (base, b :: r)
  | [] => some (base, [])

/-- The fractional part of number lexing: "optional `.` + digits", then the
exponent part.  `sgn` is the sign, `ids` the integer-part digits. -/
def parseFrac (sgn : ℚ) (ids : List Nat) (cs : List Nat) :
    Option (ℚ × List Nat) :=
  match cs with
  | b :: r =>
      if b = 46 then
        let (fds, cs3) := takeDigits r
        if fds = [] then none
        else
          parseExp (sgn * (digitsVal ids + digitsVal fds / 10 ^ fds.length)) cs3
      else parseExp (sgn * digitsVal ids) (b :: r)
  | [] => parseExp (sgn * digitsVal ids) []

/-- Modelled from the spec: number lexing (JSON.cpp) — "optional leading
`-`, digits, optional `.` + digits, optional exponent …; convert via
standard floating-point parsing".  The conversion is exact here (the inputs
the round-trip feeds it are exactly representable). -/
def parseNumber : List Nat → Option (ℚ × List Nat)
  | [] => none
  | b :: t =>
      let (neg, cs1) : Bool × List Nat :=
        if b = 45 then (true, t) else (false, b :: t)
      let (ids, cs2) := takeDigits cs1
      if ids = [] then none
      else parseFrac (if neg then -1 else 1) ids cs2

/-- The byte of a hexadecimal digit `n < 16` (lower case, as
`WriteJSONString` emits). -/
def hexDigit (n : Nat) : Nat := if n < 10 then 48 + n else 87 + n

/-- The value of a hexadecimal digit byte, if it is one. -/
def hexVal (b : Nat) : Option Nat :=
  if 48 ≤ b ∧ b ≤ 57 then some (b - 48)
  else if 97 ≤ b ∧ b ≤ 102 then some (b - 87)
  else if 65 ≤ b ∧ b ≤ 70 then some (b - 55)
  else none

/-- The value of four hexadecimal digit bytes (`\uXXXX`), if they all are
hexadecimal digits. -/
def hex4 (a b c d : Nat) : Option Nat :=
  match hexVal a, hexVal b, hexVal c, hexVal d with
  | some va, some vb, some vc, some vd =>
      some (((va * 16 + vb) * 16 + vc) * 16 + vd)
  | _, _, _, _ => none

/-- UTF-8 bytes of a code point (the parser re-encodes decoded `\uXXXX`
escapes into the byte string). -/
def utf8Encode (n : Nat) : List Nat :=
  if n < 128 then [n]
  else if n < 2048 then [192 + n / 64, 128 + n % 64]
  else if n < 65536 then [224 + n / 4096, 128 + n / 64 % 64, 128 + n % 64]
  else [240 + n / 262144, 128 + n / 4096 % 64, 128 + n / 64 % 64, 128 + n % 64]

/-- Modelled from the spec: one byte of `WriteJSONString` (JSON.cpp) —
`"`, `\` and control characters `< 0x20` are escaped, the latter with the
named escapes `\b \f \n \r \t` where one exists and `\u00XX` otherwise;
every other byte is emitted verbatim. -/
def escapeByte (b : Nat) : List Nat :=
  if b = 34 then [92, 34]
  else if b = 92 then [92, 92]
  else if b = 8 then [92, 98]
  else if b = 12 then [92, 102]
  else if b = 10 then [92, 110]
  else if b = 13 then [92, 114]
  else if b = 9 then [92, 116]
  else if b < 32 then [92, 117, 48, 48, hexDigit (b / 16), hexDigit (b % 16)]
  else [b]

/-- Modelled from the spec: `WriteJSONString` (JSON.cpp) — the string
wrapped in quotes with its bytes escaped. -/
def strBytes (s : ByteStr) : ByteStr :=
  34 :: (s.flatMap escapeByte ++ [34])

/-- The surrogate code point of a reassembled `\uXXXX\uYYYY` pair. -/
def surrPair (n m : Nat) : Nat := 65536 + (n - 55296) * 1024 + (m - 56320)

mutual

/-- Modelled from the spec: `ReadJSONString` (JSON.cpp) past the opening
quote — bytes are copied verbatim until an unescaped `"`; a `\` defers to
the escape decoder; end of input before the closing quote is a parse
failure.  `acc` holds the decoded bytes in reverse. -/
def readString (acc : List Nat) : List Nat → Option (ByteStr × List Nat)
  | [] => none
  | b :: rest =>
      if b = 34 then some (acc.reverse, rest)
      else if b = 92 then readEscaped acc rest
      else readString (b :: acc) rest

/-- Modelled from the spec: the escape decoder of `ReadJSONString` — the
escapes `\" \\ \/ \b \f \n \r \t` and `\uXXXX` (four hex digits) are
decoded; any other escape, or a truncated one, is a parse failure. -/
def readEscaped (acc : List Nat) : List Nat → Option (ByteStr × List Nat)
  | [] => none
  | e :: rest =>
      if e = 34 then readString (34 :: acc) rest
      else if e = 92 then readString (92 :: acc) rest
      else if e = 47 then readString (47 :: acc) rest
      else if e = 98 then readString (8 :: acc) rest
      else if e = 102 then readString (12 :: acc) rest
      else if e = 110 then readString (10 :: acc) rest
      else if e = 114 then readString (13 :: acc) rest
      else if e = 116 then readString (9 :: acc) rest
      else if e = 117 then
        match rest with
        | h1 :: h2 :: h3 :: h4 :: rest2 =>
            match hex4 h1 h2 h3 h4 with
            | some n =>
                if 55296 ≤ n ∧ n ≤ 56319 then readSurrogate acc n rest2
                else readString ((utf8Encode n).reverse ++ acc) rest2
            | none => none
        | _ => none
      else none

/-- Modelled from the spec: the low half of a surrogate pair — a high
surrogate must be followed by `\uYYYY` with a low surrogate; the pair is
reassembled into one code point before being appended. -/
def readSurrogate (acc : List Nat) (n : Nat) : List Nat → Option (ByteStr × List Nat)
  | e2 :: u2 :: g1 :: g2 :: g3 :: g4 :: rest3 =>
      if e2 = 92 ∧ u2 = 117 then
        match hex4 g1 g2 g3 g4 with
        | some m =>
            if 56320 ≤ m ∧ m ≤ 57343 then
              readString ((utf8Encode (surrPair n m)).reverse ++ acc) rest3
            else none
        | none => none
      else none
  | _ => none

end

/-- `MatchString` (declared in JSON.h): match the fixed literal byte by
byte, returning the remainder on success. -/
def matchLit : List Nat → List Nat → Option (List Nat)
  | [], cs => some cs
  | l :: ls, c :: cs => if c = l then matchLit ls cs else none
  | _ :: _, [] => none

/-- Rebuild an object from parsed members in order, through `objInsert`,
exactly as the parser's object loop calls `Insert(pair)` for each member —
so a duplicate key in the input overwrites the earlier value. -/
def buildObj (ms : List (ByteStr × JSONValue)) : List (ByteStr × JSONValue) :=
  ms.foldl (fun o p => objInsert o p.1 p.2) []

mutual

/-- Modelled from the spec: `JSONValue::Parse` (JSON.cpp) — recursive
descent with one token of lookahead via whitespace-skipping reads
(`NextChar`): skip insignificant whitespace, dispatch on the next byte
(`n`/`t`/`f` matching the literal via `MatchString`, `"` for a string, `[`
for an array, `{` for an object, a digit or `-` for a number, anything else
failing).  `fuel` makes the recursion structural; the C++ recursion depth is
bounded by the remaining input, so any fuel of at least twice the input
length is exact. -/
def parseValue : Nat → List Nat → Option (JSONValue × List Nat)
  | 0, _ => none
  | fuel + 1, cs =>
      match skipWs cs with
      | [] => none
      | c :: r =>
          if c = 110 then
            match matchLit [117, 108, 108] r with
            | some r' => some (.null, r')
            | none => none
          else if c = 116 then
            match matchLit [114, 117, 101] r with
            | some r' => some (.bool true, r')
            | none => none
          else if c = 102 then
            match matchLit [97, 108, 115, 101] r with
            | some r' => some (.bool false, r')
            | none => none
          else if c = 34 then
            match readString [] r with
            | some (s, r') => some (.str s, r')
            | none => none
          else if c = 91 then
            match skipWs r with
            | [] => none
            | c2 :: r2 =>
                if c2 = 93 then some (.array [], r2)
                else
                  match parseItems fuel (c2 :: r2) with
                  | some (es, r') => some (.array es, r')
                  | none => none
          else if c = 123 then
            match skipWs r with
            | [] => none
            | c2 :: r2 =>
                if c2 = 125 then some (.object [], r2)
                else
                  match parseMembers fuel (c2 :: r2) with
                  | some (ms, r') => some (.object (buildObj ms), r')
                  | none => none
          else if c = 45 ∨ isDigitB c then
            match parseNumber (c :: r) with
            | some (q, r') => some (.number q, r')
            | none => none
          else none

/-- Modelled from the spec: the array loop of `Parse` — repeatedly parse a
nested value, skip whitespace, accept `,` to continue or `]` to close (the
empty array is handled before the first element). -/
def parseItems : Nat → List Nat → Option (List JSONValue × List Nat)
  | 0, _ => none
  | fuel + 1, cs =>
      match parseValue fuel cs with
      | none => none
      | some (v, r) =>
          match skipWs r with
          | [] => none
          | b :: r' =>
              if b = 44 then
                match parseItems fuel r' with
                | some (vs, r2) => some (v :: vs, r2)
                | none => none
              else if b = 93 then some ([v], r')
              else none

/-- Modelled from the spec: the object loop of `Parse` — repeatedly parse a
`"key"`, `:`, and a nested value, skip whitespace, accept `,` to continue
or `}` to close (the empty object is handled before the first member).  The
members are listed in input order; the enclosing object is built from them
through `Insert(pair)` (see `buildObj`). -/
def parseMembers : Nat → List Nat → Option (List (ByteStr × JSONValue) × List Nat)
  | 0, _ => none
  | fuel + 1, cs =>
      match skipWs cs with
      | [] => none
      | b :: r =>
          if b = 34 then
            match readString [] r with
            | none => none
            | some (k, r1) =>
                match skipWs r1 with
                | [] => none
                | b2 :: r2 =>
                    if b2 = 58 then
                      match parseValue fuel r2 with
                      | none => none
                      | some (v, r3) =>
                          match skipWs r3 with
                          | [] => none
                          | b3 :: r4 =>
                              if b3 = 44 then
                                match parseMembers fuel r4 with
                                | some (ms, r5) => some ((k, v) :: ms, r5)
                                | none => none
                              else if b3 = 125 then some ([(k, v)], r4)
                              else none
                    else none
          else none

end

/-- Modelled from the spec: `FromString` (JSON.cpp) — parse exactly one
value from the buffer; trailing bytes after the value are not an error.  On
failure the receiver's partial state is unspecified, so the model returns
`none`.  The fuel `2 · length + 2` over-approximates the C++ recursion
depth, which is bounded by the input (every two nested calls consume at
least one byte). -/
def fromString (s : ByteStr) : Option JSONValue :=
  match parseValue (2 * s.length + 2) s with
  | some (v, _) => some v
  | none => none

/-- Newline plus `ind` spaces of indentation when pretty-printing
(`WriteIndent`); nothing in compact mode (`spacing = 0`). -/
def pad (sp ind : Nat) : ByteStr :=
  if sp = 0 then [] else 10 :: List.replicate ind 32

mutual

/-- Modelled from the spec: `ToString(dest, spacing, indent)` (JSON.cpp) —
depth-first recursive emission: `null`, `true`/`false`, numbers via
`numBytes`, strings via `WriteJSONString`; arrays and objects compactly
(`spacing = 0`: no inserted whitespace, `,`-separated, `"key":value`) or
pretty-printed (each element on its own line indented by
`indent + spacing`, the closing bracket on the parent's indent, `"key": value`);
an empty array or object prints as `[]`/`{}` with no internal newline. -/
def writeValue (sp ind : Nat) : JSONValue → ByteStr
  | .null => [110, 117, 108, 108]
  | .bool true => [116, 114, 117, 101]
  | .bool false => [102, 97, 108, 115, 101]
  | .number q => numBytes q
  | .str s => strBytes s
  | .array [] => [91, 93]
  | .array (e :: es) =>
      91 :: (pad sp (ind + sp) ++ writeValue sp (ind + sp) e
          ++ moreItems sp (ind + sp) es ++ pad sp ind ++ [93])
  | .object [] => [123, 125]
  | .object (m :: ms) =>
      123 :: (pad sp (ind + sp) ++ writeMember sp (ind + sp) m
          ++ moreMembers sp (ind + sp) ms ++ pad sp ind ++ [125])

/-- One object member: the escaped quoted key, `:` (plus a space when
pretty-printing), and the value. -/
def writeMember (sp ind : Nat) : ByteStr × JSONValue → ByteStr
  | (k, v) =>
      strBytes k ++ 58 :: ((if sp = 0 then [] else [32]) ++ writeValue sp ind v)

/-- The remaining array elements, each preceded by `,` (and a fresh
indented line when pretty-printing). -/
def moreItems (sp ind : Nat) : List JSONValue → ByteStr
  | [] => []
  | e :: es => 44 :: (pad sp ind ++ writeValue sp ind e ++ moreItems sp ind es)

/-- The remaining object members, each preceded by `,` (and a fresh
indented line when pretty-printing). -/
def moreMembers (sp ind : Nat) : List (ByteStr × JSONValue) → ByteStr
  | [] => []
  | m :: ms => 44 :: (pad sp ind ++ writeMember sp ind m ++ moreMembers sp ind ms)

end

/-- `ToString(spacing)`: serialize the whole tree, starting at indent 0. -/
def toText (v : JSONValue) (sp : Nat) : ByteStr := writeValue sp 0 v

/-- No two entries of an association list share a key — the hash-map
invariant of every `JSONObject`. -/
def nodupKeys : List (ByteStr × JSONValue) → Bool
  | [] => true
  | (k, _) :: t => !hasKey k t && nodupKeys t

mutual

/-- Well-formedness of a value tree: every object node, at any depth, has
pairwise distinct keys.  Every tree built through the class's own API
(§ the key-uniqueness invariant) satisfies this. -/
def wf : JSONValue → Bool
  | .array a => wfItems a
  | .object o => nodupKeys o && wfMembers o
  | _ => true

def wfItems : List JSONValue → Bool
  | [] => true
  | e :: es => wf e && wfItems es

def wfMembers : List (ByteStr × JSONValue) → Bool
  | [] => true
  | (_, x) :: ms => wf x && wfMembers ms

end

mutual

/-- Every number payload in the tree has a finite decimal expansion.  A
tree "built programmatically with no NaN/Infinity numbers" satisfies this:
every finite double is `m / 2^e`, and `2^e ∣ 10^e`. -/
def numsFinite : JSONValue → Bool
  | .number q => finiteDec q
  | .array a => numsFiniteItems a
  | .object o => numsFiniteMembers o
  | _ => true

def numsFiniteItems : List JSONValue → Bool
  | [] => true
  | e :: es => numsFinite e && numsFiniteItems es

def numsFiniteMembers : List (ByteStr × JSONValue) → Bool
  | [] => true
  | (_, x) :: ms => numsFinite x && numsFiniteMembers ms

end

mutual

/-- Modelled from the spec: `operator==` (JSON.cpp) — structural equality:
same type; equal scalar payloads; arrays equal in length and pairwise
elements in order; objects equal as key-value sets independent of order
(each member of the left found by key on the right with an equal value, and
every key of the right present on the left). -/
def jsonEquals : JSONValue → JSONValue → Bool
  | .null, .null => true
  | .bool a, .bool b => a = b
  | .number a, .number b => a = b
  | .str a, .str b => a = b
  | .array a, .array b => eqItems a b
  | .object a, .object b =>
      subMembers a b && b.all (fun p => hasKey p.1 a)
  | _, _ => false

def eqItems : List JSONValue → List JSONValue → Bool
  | [], [] => true
  | x :: xs, y :: ys => jsonEquals x y && eqItems xs ys
  | _, _ => false

def subMembers : List (ByteStr × JSONValue) → List (ByteStr × JSONValue) → Bool
  | [], _ => true
  | (k, x) :: t, b =>
      (match alistFind k b with
       | some y => jsonEquals x y
       | none => false) && subMembers t b

end

/-- Modelled from the spec: `operator[](size_t) const` — "Const index as an
array.  Return a null value if not an array"; on an out-of-range index it
returns the shared `EMPTY` sentinel and the receiver is untouched. -/
def constIdx (v : JSONValue) (i : Nat) : JSONValue :=
  match v with
  | .array a => a.getD i EMPTY
  | _ => EMPTY

/-- Modelled from the spec: `operator[](const String&) const` — "Const index
as an object.  Return a null value if not an object"; on a missing key it
returns the shared `EMPTY` sentinel and the receiver is untouched. -/
def constKey (v : JSONValue) (k : ByteStr) : JSONValue :=
  match v with
  | .object o => (alistFind k o).getD EMPTY
  | _ => EMPTY

/-- How many entries of an association list carry the given key. -/
def countKey (k : ByteStr) (o : List (ByteStr × JSONValue)) : Nat :=
  (o.filter (fun p => decide (p.1 = k))).length

/-- A remainder that cannot extend a number token: empty, or headed by a
byte that is no digit and none of `.`, `e`, `E`.  The bytes that can follow
a serialized number — `,`, `]`, `}`, end of input — all qualify. -/
def numDelimB : List Nat → Bool
  | [] => true
  | b :: _ => !(isDigitB b || b = 46 || b = 101 || b = 69)

/-! ### Decimal digit runs -/

theorem natDigitsAux_stable (n : Nat) : ∀ f, n < f → natDigitsAux f n = natDigits n := by
  induction n using Nat.strongRecOn with
  | _ n ih =>
    intro f hf
    match f, hf with
    | f + 1, _ =>
      show natDigitsAux (f + 1) n = natDigitsAux (n + 1) n
      by_cases h10 : n < 10
      · simp [natDigitsAux, h10]
      · have hlt : n / 10 < n := Nat.div_lt_self (by omega) (by omega)
        simp only [natDigitsAux, if_neg h10]
        rw [ih (n / 10) hlt f (by omega), ih (n / 10) hlt n (by omega)]

theorem natDigits_unfold (n : Nat) :
    natDigits n = if n < 10 then [48 + n] else natDigits (n / 10) ++ [48 + n % 10] := by
  show natDigitsAux (n + 1) n = _
  by_cases h10 : n < 10
  · simp [natDigitsAux, h10]
  · simp only [natDigitsAux, if_neg h10]
    rw [natDigitsAux_stable (n / 10) n (Nat.div_lt_self (by omega) (by omega))]

theorem natDigits_ne_nil (n : Nat) : natDigits n ≠ [] := by
  rw [natDigits_unfold]
  by_cases h10 : n < 10 <;> simp [h10]

theorem natDigits_digits (n : Nat) : ∀ b ∈ natDigits n, isDigitB b = true := by
  induction n using Nat.strongRecOn with
  | _ n ih =>
    rw [natDigits_unfold]
    intro b hb
    by_cases h10 : n < 10
    · rw [if_pos h10] at hb
      simp only [List.mem_singleton] at hb
      subst hb
      simp only [isDigitB, Bool.and_eq_true, decide_eq_true_eq]
      omega
    · rw [if_neg h10] at hb
      rcases List.mem_append.mp hb with h | h
      · exact ih (n / 10) (Nat.div_lt_self (by omega) (by omega)) b h
      · simp only [List.mem_singleton] at h
        subst h
        have := Nat.mod_lt n (show 0 < 10 by omega)
        simp only [isDigitB, Bool.and_eq_true, decide_eq_true_eq]
        omega

theorem natDigits_head (n : Nat) :
    ∃ c t, natDigits n = c :: t ∧ isDigitB c = true := by
  match h : natDigits n with
  | [] => exact absurd h (natDigits_ne_nil n)
  | c :: t => exact ⟨c, t, rfl, natDigits_digits n c (h ▸ List.mem_cons_self c t)⟩

theorem digitsVal_acc (ds : List Nat) : ∀ acc : Nat,
    ds.foldl (fun a b => a * 10 + (b - 48)) acc = acc * 10 ^ ds.length + digitsVal ds := by
  induction ds with
  | nil => intro acc; simp [digitsVal]
  | cons d t ih =>
      intro acc
      simp only [List.foldl_cons, digitsVal, List.length_cons]
      rw [ih (acc * 10 + (d - 48)), ih (0 * 10 + (d - 48))]
      ring

theorem digitsVal_cons (d : Nat) (t : List Nat) :
    digitsVal (d :: t) = (d - 48) * 10 ^ t.length + digitsVal t := by
  simp only [digitsVal, List.foldl_cons]
  rw [digitsVal_acc t]
  simp [digitsVal]

theorem digitsVal_append (a b : List Nat) :
    digitsVal (a ++ b) = digitsVal a * 10 ^ b.length + digitsVal b := by
  simp only [digitsVal, List.foldl_append]
  exact digitsVal_acc b (List.foldl (fun a b => a * 10 + (b - 48)) 0 a)

theorem digitsVal_natDigits (n : Nat) : digitsVal (natDigits n) = n := by
  induction n using Nat.strongRecOn with
  | _ n ih =>
    rw [natDigits_unfold]
    by_cases h10 : n < 10
    · rw [if_pos h10, digitsVal_cons]
      simp only [digitsVal, List.length_nil, List.foldl_nil, pow_zero]
      omega
    · rw [if_neg h10, digitsVal_append,
          ih (n / 10) (Nat.div_lt_self (by omega) (by omega)), digitsVal_cons]
      simp only [digitsVal, List.length_nil, List.length_singleton, List.foldl_nil, pow_zero,
        pow_one]
      omega

theorem digitsVal_replicate48 (j : Nat) : digitsVal (List.replicate j 48) = 0 := by
  induction j with
  | zero => rfl
  | succ j ih => rw [List.replicate_succ, digitsVal_cons, ih]; simp

theorem digitsVal_pad (j : Nat) (ds : List Nat) :
    digitsVal (List.replicate j 48 ++ ds) = digitsVal ds := by
  rw [digitsVal_append, digitsVal_replicate48]
  simp

theorem pad_digits (j : Nat) (ds : List Nat) (hds : ∀ b ∈ ds, isDigitB b = true) :
    ∀ b ∈ List.replicate j 48 ++ ds, isDigitB b = true := by
  intro b hb
  rcases List.mem_append.mp hb with h | h
  · rw [List.eq_of_mem_replicate h]; rfl
  · exact hds b h

/-! ### The digit lexer -/

theorem takeDigits_nondigit {b : Nat} (t : List Nat) (h : isDigitB b = false) :
    takeDigits (b :: t) = ([], b :: t) := by
  simp [takeDigits, h]

theorem numDelimB_head {b : Nat} {t : List Nat} (h : numDelimB (b :: t) = true) :
    isDigitB b = false ∧ b ≠ 46 ∧ b ≠ 101 ∧ b ≠ 69 := by
  simp only [numDelimB, Bool.not_eq_eq_eq_not, Bool.not_true, Bool.or_eq_false_iff,
    decide_eq_false_iff_not] at h
  exact ⟨h.1.1.1, h.1.1.2, h.1.2, h.2⟩

theorem takeDigits_delim {cs : List Nat} (h : numDelimB cs = true) :
    takeDigits cs = ([], cs) := by
  match cs with
  | [] => rfl
  | b :: t => exact takeDigits_nondigit t (numDelimB_head h).1

theorem takeDigits_run (ds : List Nat) (hds : ∀ b ∈ ds, isDigitB b = true)
    (rest : List Nat) (hrest : takeDigits rest = ([], rest)) :
    takeDigits (ds ++ rest) = (ds, rest) := by
  induction ds with
  | nil => simpa using hrest
  | cons d t ih =>
      have hd : isDigitB d = true := hds d (List.mem_cons_self d t)
      have ht := ih (fun b hb => hds b (List.mem_cons_of_mem d hb))
      simp [takeDigits, hd, ht]

/-! ### The number codec -/

theorem decMant_spec (q : ℚ) (hq : finiteDec q = true) :
    (decMant q : ℚ) = q * 10 ^ decScale q := by
  have hdvd : q.den ∣ 10 ^ decScale q :=
    Nat.dvd_of_mod_eq_zero (by simpa [finiteDec] using hq)
  have htden : 10 ^ decScale q / q.den * q.den = 10 ^ decScale q :=
    Nat.div_mul_cancel hdvd
  have hden0 : (q.den : ℚ) ≠ 0 := by
    exact_mod_cast q.den_nz
  have hcast : ((10 ^ decScale q / q.den : Nat) : ℚ) * (q.den : ℚ) = 10 ^ decScale q := by
    exact_mod_cast congrArg (fun n : Nat => (n : ℚ)) htden
  have h1 : (q.num : ℚ) = q * (q.den : ℚ) := (div_eq_iff hden0).mp (Rat.num_div_den q)
  rw [decMant, Int.cast_mul, Int.cast_natCast, h1, mul_assoc,
    mul_comm ((q.den : ℚ)) _, hcast]

theorem decScaleDiv_pos (q : ℚ) (hq : finiteDec q = true) :
    0 < 10 ^ decScale q / q.den := by
  have hdvd : q.den ∣ 10 ^ decScale q :=
    Nat.dvd_of_mod_eq_zero (by simpa [finiteDec] using hq)
  rcases Nat.eq_zero_or_pos (10 ^ decScale q / q.den) with h | h
  · exfalso
    have := Nat.div_mul_cancel hdvd
    rw [h] at this
    simp at this
    exact absurd this (by positivity)
  · exact h

theorem decMant_neg_iff (q : ℚ) (hq : finiteDec q = true) :
    decMant q < 0 ↔ q.num < 0 := by
  have hpos : (0 : ℤ) < (10 ^ decScale q / q.den : Nat) := by
    exact_mod_cast decScaleDiv_pos q hq
  rw [decMant]
  constructor
  · intro h
    by_contra hn
    push_neg at hn
    exact absurd (mul_nonneg hn hpos.le) (not_le.mpr h)
  · intro h
    exact mul_neg_of_neg_of_pos h hpos

/-- Splitting the printed decimal with `k ≥ 1` fractional digits. -/
theorem decDigits_split (n k : Nat) (hk : k ≠ 0) :
    ∃ ids fds, decDigits n k = ids ++ 46 :: fds ∧ ids ≠ [] ∧ fds.length = k ∧
      (∀ b ∈ ids, isDigitB b = true) ∧ (∀ b ∈ fds, isDigitB b = true) ∧
      digitsVal ids * 10 ^ k + digitsVal fds = n := by
  set ds := List.replicate (k + 1 - (natDigits n).length) 48 ++ natDigits n with hds
  have hlen : k + 1 ≤ ds.length := by
    have h1 : 1 ≤ (natDigits n).length :=
      List.length_pos.mpr (natDigits_ne_nil n)
    simp only [hds, List.length_append, List.length_replicate]
    omega
  have hdig : ∀ b ∈ ds, isDigitB b = true :=
    pad_digits _ _ (natDigits_digits n)
  have hval : digitsVal ds = n := by
    rw [hds, digitsVal_pad, digitsVal_natDigits]
  refine ⟨ds.take (ds.length - k), ds.drop (ds.length - k), ?_, ?_, ?_, ?_, ?_, ?_⟩
  · simp [decDigits, hk, hds]
  · have : (ds.take (ds.length - k)).length = ds.length - k := by
      rw [List.length_take]
      omega
    intro hnil
    rw [hnil] at this
    simp at this
    omega
  · rw [List.length_drop]
    omega
  · intro b hb
    exact hdig b (List.mem_of_mem_take hb)
  · intro b hb
    exact hdig b (List.mem_of_mem_drop hb)
  · have hsplit : ds.take (ds.length - k) ++ ds.drop (ds.length - k) = ds :=
      List.take_append_drop _ ds
    have hdroplen : (ds.drop (ds.length - k)).length = k := by
      rw [List.length_drop]
      omega
    calc digitsVal (ds.take (ds.length - k)) * 10 ^ k + digitsVal (ds.drop (ds.length - k))
        = digitsVal (ds.take (ds.length - k)) * 10 ^ (ds.drop (ds.length - k)).length
            + digitsVal (ds.drop (ds.length - k)) := by rw [hdroplen]
      _ = digitsVal (ds.take (ds.length - k) ++ ds.drop (ds.length - k)) :=
            (digitsVal_append _ _).symm
      _ = n := by rw [hsplit, hval]

theorem parseExp_delim (base : ℚ) {cs : List Nat} (h : numDelimB cs = true) :
    parseExp base cs = some (base, cs) := by
  match cs with
  | [] => rfl
  | b :: t =>
      obtain ⟨-, -, he, hE⟩ := numDelimB_head h
      simp [parseExp, he, hE]

theorem parseFrac_delim (sgn : ℚ) (ids : List Nat) {cs : List Nat}
    (h : numDelimB cs = true) :
    parseFrac sgn ids cs = some (sgn * digitsVal ids, cs) := by
  match cs with
  | [] => rw [parseFrac]; exact parseExp_delim _ h
  | b :: t =>
      obtain ⟨-, hdot, -, -⟩ := numDelimB_head h
      rw [parseFrac, if_neg hdot]
      exact parseExp_delim _ h

theorem parseFrac_dot (sgn : ℚ) (ids fds rest : List Nat)
    (hfds : ∀ b ∈ fds, isDigitB b = true) (hne : fds ≠ [])
    (hr : numDelimB rest = true) :
    parseFrac sgn ids (46 :: (fds ++ rest))
      = some (sgn * (digitsVal ids + digitsVal fds / 10 ^ fds.length), rest) := by
  rw [parseFrac]
  simp only [if_pos rfl]
  rw [takeDigits_run fds hfds rest (takeDigits_delim hr)]
  simp only [hne, if_neg (by simpa using hne)]
  exact parseExp_delim _ hr

theorem parseNumber_eval_neg (t ids cs2 : List Nat)
    (htd : takeDigits t = (ids, cs2)) (hne : ids ≠ []) :
    parseNumber (45 :: t) = parseFrac (-1) ids cs2 := by
  simp [parseNumber, htd, hne]

theorem parseNumber_eval_pos (b : Nat) (t ids cs2 : List Nat) (hb : isDigitB b = true)
    (htd : takeDigits (b :: t) = (ids, cs2)) (hne : ids ≠ []) :
    parseNumber (b :: t) = parseFrac 1 ids cs2 := by
  have hb45 : b ≠ 45 := by
    simp only [isDigitB, Bool.and_eq_true, decide_eq_true_eq] at hb
    omega
  simp [parseNumber, hb45, htd, hne]

/-- The number codec round-trip: lexing a printed number recovers the exact
rational, whenever the remainder cannot extend the token. -/
theorem parseNumber_inv (q : ℚ) (hq : finiteDec q = true) (rest : List Nat)
    (hr : numDelimB rest = true) :
    parseNumber (numBytes q ++ rest) = some (q, rest) := by
  have hmval := decMant_spec q hq
  have h10 : ((10 : ℚ)) ^ decScale q ≠ 0 := by positivity
  have hqm : q = (decMant q : ℚ) / 10 ^ decScale q := by
    rw [hmval, mul_div_cancel_right₀ _ h10]
  by_cases hk0 : decScale q = 0
  · rw [hk0, pow_zero, mul_one] at hmval
    by_cases hneg : q.num < 0
    · have hm : decMant q < 0 := (decMant_neg_iff q hq).mpr hneg
      have hnq : (((decMant q).natAbs : Nat) : ℚ) = -((decMant q : ℤ) : ℚ) := by
        rw [Nat.cast_natAbs, abs_of_neg hm, Int.cast_neg]
      have harg : numBytes q ++ rest
          = 45 :: (natDigits (decMant q).natAbs ++ rest) := by
        simp [numBytes, hneg, hk0, decDigits]
      rw [harg, parseNumber_eval_neg _ _ _
            (takeDigits_run _ (natDigits_digits _) rest (takeDigits_delim hr))
            (natDigits_ne_nil _),
          parseFrac_delim _ _ hr, digitsVal_natDigits]
      have hvq : (-1 : ℚ) * ((decMant q).natAbs : Nat) = q := by
        rw [hnq, hmval]
        ring
      rw [hvq]
    · have hm : (0 : ℤ) ≤ decMant q := by
        by_contra h
        exact hneg ((decMant_neg_iff q hq).mp (by omega))
      have hnq : (((decMant q).natAbs : Nat) : ℚ) = ((decMant q : ℤ) : ℚ) := by
        rw [Nat.cast_natAbs, abs_of_nonneg hm]
      obtain ⟨c, t, hnd, hc⟩ := natDigits_head (decMant q).natAbs
      have harg : numBytes q ++ rest
          = c :: (t ++ rest) := by
        simp [numBytes, hneg, hk0, decDigits, hnd]
      have htd : takeDigits (c :: (t ++ rest)) = (natDigits (decMant q).natAbs, rest) := by
        rw [← List.cons_append, ← hnd]
        exact takeDigits_run _ (natDigits_digits _) rest (takeDigits_delim hr)
      rw [harg, parseNumber_eval_pos c _ _ _ hc htd (hnd ▸ natDigits_ne_nil _),
          parseFrac_delim _ _ hr, digitsVal_natDigits]
      have hvq : (1 : ℚ) * ((decMant q).natAbs : Nat) = q := by
        rw [hnq, hmval]
        ring
      rw [hvq]
  · obtain ⟨ids, fds, hsplit, hine, hflen, hidig, hfdig, hval⟩ :=
      decDigits_split (decMant q).natAbs (decScale q) hk0
    have hfne : fds ≠ [] := by
      intro h
      rw [h] at hflen
      exact hk0 hflen.symm
    have hnq' : (((decMant q).natAbs : Nat) : ℚ)
        = (digitsVal ids : ℚ) * 10 ^ decScale q + (digitsVal fds : ℚ) := by
      exact_mod_cast congrArg (fun n : Nat => (n : ℚ)) hval.symm
    have htd1 : takeDigits (ids ++ 46 :: (fds ++ rest)) = (ids, 46 :: (fds ++ rest)) :=
      takeDigits_run ids hidig _ (takeDigits_nondigit _ (by rfl))
    have hdot := parseFrac_dot (-1) ids fds rest hfdig hfne hr
    have hdot1 := parseFrac_dot 1 ids fds rest hfdig hfne hr
    by_cases hneg : q.num < 0
    · have hm : decMant q < 0 := (decMant_neg_iff q hq).mpr hneg
      have hnq : (((decMant q).natAbs : Nat) : ℚ) = -((decMant q : ℤ) : ℚ) := by
        rw [Nat.cast_natAbs, abs_of_neg hm, Int.cast_neg]
      have harg : numBytes q ++ rest = 45 :: (ids ++ 46 :: (fds ++ rest)) := by
        simp [numBytes, hneg, hsplit]
      rw [harg, parseNumber_eval_neg _ _ _ htd1 hine, hdot]
      have hvq : (-1 : ℚ) * ((digitsVal ids : ℚ) + (digitsVal fds : ℚ) / 10 ^ fds.length)
          = q := by
        rw [hflen]
        apply mul_right_cancel₀ h10
        rw [← hmval, show ((decMant q : ℤ) : ℚ) = -(((decMant q).natAbs : Nat) : ℚ) from by
          rw [hnq]; ring, hnq']
        field_simp
      rw [hvq]
    · have hm : (0 : ℤ) ≤ decMant q := by
        by_contra h
        exact hneg ((decMant_neg_iff q hq).mp (by omega))
      have hnq : (((decMant q).natAbs : Nat) : ℚ) = ((decMant q : ℤ) : ℚ) := by
        rw [Nat.cast_natAbs, abs_of_nonneg hm]
      obtain ⟨c, t, hnd⟩ := List.exists_cons_of_ne_nil hine
      subst hnd
      have hcdig : isDigitB c = true := hidig c (List.mem_cons_self c t)
      have harg : numBytes q ++ rest = c :: (t ++ 46 :: (fds ++ rest)) := by
        simp [numBytes, hneg, hsplit]
      rw [harg, parseNumber_eval_pos c _ _ _ hcdig (by simpa using htd1) (by simp), hdot1]
      have hvq : (1 : ℚ)
          * ((digitsVal (c :: t) : ℚ) + (digitsVal fds : ℚ) / 10 ^ fds.length)
          = q := by
        rw [hflen]
        apply mul_right_cancel₀ h10
        rw [← hmval, ← hnq, hnq']
        field_simp
      rw [hvq]

/-! ### The string codec -/

theorem hexVal_hexDigit (n : Nat) (h : n < 16) : hexVal (hexDigit n) = some n := by
  by_cases h10 : n < 10
  · rw [hexDigit, if_pos h10, hexVal, if_pos (by omega)]
    congr 1
    omega
  · rw [hexDigit, if_neg h10, hexVal, if_neg (by omega), if_pos (by omega)]
    congr 1
    omega

/-- Reading an unescaped, unquoted byte copies it verbatim. -/
theorem readString_verbatim (acc rest : List Nat) (b : Nat)
    (h1 : b ≠ 34) (h2 : b ≠ 92) :
    readString acc (b :: rest) = readString (b :: acc) rest := by
  rw [readString, if_neg h1, if_neg h2]

/-- Reading one escaped byte undoes the escaping. -/
theorem readString_escape (b : Nat) (acc rest : List Nat) :
    readString acc (escapeByte b ++ rest) = readString (b :: acc) rest := by
  by_cases h34 : b = 34
  · subst h34; simp [escapeByte, readString, readEscaped]
  · by_cases h92 : b = 92
    · subst h92; simp [escapeByte, readString, readEscaped]
    · by_cases h8 : b = 8
      · subst h8; simp [escapeByte, readString, readEscaped]
      · by_cases h12 : b = 12
        · subst h12; simp [escapeByte, readString, readEscaped]
        · by_cases h10 : b = 10
          · subst h10; simp [escapeByte, readString, readEscaped]
          · by_cases h13 : b = 13
            · subst h13; simp [escapeByte, readString, readEscaped]
            · by_cases h9 : b = 9
              · subst h9; simp [escapeByte, readString, readEscaped]
              · by_cases hctl : b < 32
                · have harg : escapeByte b ++ rest
                      = 92 :: 117 :: 48 :: 48 :: hexDigit (b / 16)
                          :: hexDigit (b % 16) :: rest := by
                    simp [escapeByte, h34, h92, h8, h12, h10, h13, h9, hctl]
                  have hh : hex4 48 48 (hexDigit (b / 16)) (hexDigit (b % 16))
                      = some b := by
                    rw [hex4.eq_def, hexVal_hexDigit (b / 16) (by omega),
                        hexVal_hexDigit (b % 16) (by omega)]
                    simp only [hexVal, reduceIte]
                    show some (((0 * 16 + 0) * 16 + b / 16) * 16 + b % 16) = some b
                    congr 1
                    omega
                  rw [harg, readString]
                  simp only [reduceIte]
                  rw [readEscaped]
                  simp only [reduceIte]
                  rw [hh]
                  simp only [if_neg (by omega : ¬(55296 ≤ b ∧ b ≤ 56319))]
                  have hu : utf8Encode b = [b] := by
                    rw [utf8Encode]
                    simp only [if_pos (show b < 128 by omega)]
                  rw [hu]
                  rfl
                · have harg : escapeByte b ++ rest = b :: rest := by
                    simp [escapeByte, h34, h92, h8, h12, h10, h13, h9, hctl]
                  rw [harg, readString_verbatim acc rest b h34 h92]

/-- Reading an escaped byte run stops exactly at the closing quote. -/
theorem readString_flatMap (s : List Nat) : ∀ (acc rest : List Nat),
    readString acc (s.flatMap escapeByte ++ 34 :: rest)
      = some (acc.reverse ++ s, rest) := by
  induction s with
  | nil =>
      intro acc rest
      simp [readString]
  | cons b s ih =>
      intro acc rest
      rw [List.flatMap_cons, List.append_assoc, readString_escape, ih]
      simp

/-- The string codec round-trip: reading a written string body recovers it. -/
theorem readString_inv (s rest : List Nat) :
    readString [] (s.flatMap escapeByte ++ 34 :: rest) = some (s, rest) := by
  rw [readString_flatMap]
  rfl

/-! ### Whitespace and serialized heads -/

theorem wsByte_false_of {c : Nat} (h1 : 32 < c) (h2 : c < 128) : wsByte c = false := by
  simp only [wsByte, sbyte, if_pos h2, decide_eq_false_iff_not, not_le]
  exact_mod_cast h1

theorem skipWs_cons_nws {c : Nat} (h : wsByte c = false) (x : List Nat) :
    skipWs (c :: x) = c :: x := by
  simp [skipWs, h]

theorem decDigits_head (n k : Nat) :
    ∃ c t, decDigits n k = c :: t ∧ isDigitB c = true := by
  by_cases hk : k = 0
  · subst hk
    obtain ⟨c, t, hct, hc⟩ := natDigits_head n
    exact ⟨c, t, by rw [decDigits, if_pos rfl, hct], hc⟩
  · obtain ⟨ids, fds, hsplit, hine, -, hidig, -, -⟩ := decDigits_split n k hk
    obtain ⟨c, t, hct⟩ := List.exists_cons_of_ne_nil hine
    refine ⟨c, t ++ 46 :: fds, ?_, hidig c (hct ▸ List.mem_cons_self c t)⟩
    rw [hsplit, hct]
    simp

theorem numBytes_head (q : ℚ) :
    ∃ c t, numBytes q = c :: t ∧ (c = 45 ∨ isDigitB c = true) := by
  rw [numBytes]
  by_cases hneg : q.num < 0
  · exact ⟨45, decDigits (decMant q).natAbs (decScale q),
      by rw [if_pos hneg]; rfl, Or.inl rfl⟩
  · obtain ⟨c, t, hct, hc⟩ := decDigits_head (decMant q).natAbs (decScale q)
    exact ⟨c, t, by rw [if_neg hneg, hct]; simp, Or.inr hc⟩

theorem numStart_facts {c : Nat} (h : c = 45 ∨ isDigitB c = true) :
    wsByte c = false ∧ c ≠ 110 ∧ c ≠ 116 ∧ c ≠ 102 ∧ c ≠ 34 ∧ c ≠ 91
      ∧ c ≠ 123 ∧ c ≠ 93 ∧ c ≠ 125 := by
  have hc : 32 < c ∧ c < 128 ∧ c ≠ 110 ∧ c ≠ 116 ∧ c ≠ 102 ∧ c ≠ 34 ∧ c ≠ 91
      ∧ c ≠ 123 ∧ c ≠ 93 ∧ c ≠ 125 := by
    rcases h with h | h
    · subst h; omega
    · simp only [isDigitB, Bool.and_eq_true, decide_eq_true_eq] at h
      omega
  exact ⟨wsByte_false_of hc.1 hc.2.1, hc.2.2.1, hc.2.2.2.1, hc.2.2.2.2.1,
    hc.2.2.2.2.2.1, hc.2.2.2.2.2.2.1, hc.2.2.2.2.2.2.2.1, hc.2.2.2.2.2.2.2.2.1,
    hc.2.2.2.2.2.2.2.2.2⟩

/-- Every serialized value begins with a byte that is no insignificant
whitespace and closes neither an array nor an object. -/
theorem writeValue_head (sp ind : Nat) (v : JSONValue) :
    ∃ c t, writeValue sp ind v = c :: t ∧ wsByte c = false ∧ c ≠ 93 ∧ c ≠ 125 := by
  cases v with
  | null => exact ⟨110, _, by rw [writeValue], by decide, by decide, by decide⟩
  | bool b =>
      cases b with
      | true => exact ⟨116, _, by rw [writeValue], by decide, by decide, by decide⟩
      | false => exact ⟨102, _, by rw [writeValue], by decide, by decide, by decide⟩
  | number q =>
      obtain ⟨c, t, hct, hc⟩ := numBytes_head q
      obtain ⟨hws, -, -, -, -, -, -, h93, h125⟩ := numStart_facts hc
      exact ⟨c, t, by rw [writeValue, hct], hws, h93, h125⟩
  | str s => exact ⟨34, _, by rw [writeValue, strBytes], by decide, by decide, by decide⟩
  | array a =>
      cases a with
      | nil => exact ⟨91, _, by rw [writeValue], by decide, by decide, by decide⟩
      | cons e es => exact ⟨91, _, by rw [writeValue], by decide, by decide, by decide⟩
  | object o =>
      cases o with
      | nil => exact ⟨123, _, by rw [writeValue], by decide, by decide, by decide⟩
      | cons m ms => exact ⟨123, _, by rw [writeValue], by decide, by decide, by decide⟩

theorem skipWs_writeValue (sp ind : Nat) (v : JSONValue) (x : List Nat) :
    skipWs (writeValue sp ind v ++ x) = writeValue sp ind v ++ x := by
  obtain ⟨c, t, hct, hws, -, -⟩ := writeValue_head sp ind v
  rw [hct, List.cons_append, skipWs_cons_nws hws]

/-! ### Compact-mode serializer equations -/

theorem wv0_array_cons (e : JSONValue) (es : List JSONValue) :
    writeValue 0 0 (.array (e :: es))
      = 91 :: (writeValue 0 0 e ++ (moreItems 0 0 es ++ [93])) := by
  rw [writeValue]
  simp [pad]

theorem wv0_object_cons (m : ByteStr × JSONValue) (ms : List (ByteStr × JSONValue)) :
    writeValue 0 0 (.object (m :: ms))
      = 123 :: (writeMember 0 0 m ++ (moreMembers 0 0 ms ++ [125])) := by
  rw [writeValue]
  simp [pad]

theorem mi0_cons (e : JSONValue) (es : List JSONValue) :
    moreItems 0 0 (e :: es) = 44 :: (writeValue 0 0 e ++ moreItems 0 0 es) := by
  rw [moreItems]
  simp [pad]

theorem mm0_cons (m : ByteStr × JSONValue) (ms : List (ByteStr × JSONValue)) :
    moreMembers 0 0 (m :: ms) = 44 :: (writeMember 0 0 m ++ moreMembers 0 0 ms) := by
  rw [moreMembers]
  simp [pad]

theorem wm0 (k : ByteStr) (v : JSONValue) :
    writeMember 0 0 (k, v)
      = 34 :: (k.flatMap escapeByte ++ 34 :: 58 :: writeValue 0 0 v) := by
  rw [writeMember, strBytes]
  simp

/-! ### Rebuilding an object from parsed members -/

theorem hasKey_eq_false_iff (k : ByteStr) (o : List (ByteStr × JSONValue)) :
    hasKey k o = false ↔ ∀ p ∈ o, p.1 ≠ k := by
  induction o with
  | nil => simp [hasKey]
  | cons p t ih =>
      rw [hasKey]
      simp only [Bool.or_eq_false_iff, decide_eq_false_iff_not, ih,
        List.mem_cons]
      constructor
      · rintro ⟨h1, h2⟩ x hx
        rcases hx with rfl | hx
        · exact h1
        · exact h2 x hx
      · intro h
        exact ⟨h p (Or.inl rfl), fun x hx => h x (Or.inr hx)⟩

theorem objInsert_fresh (o : List (ByteStr × JSONValue)) (k : ByteStr)
    (x : JSONValue) (h : hasKey k o = false) :
    objInsert o k x = o ++ [(k, x)] := by
  induction o with
  | nil => rfl
  | cons p t ih =>
      obtain ⟨p1, p2⟩ := p
      rw [hasKey] at h
      simp only [Bool.or_eq_false_iff, decide_eq_false_iff_not] at h
      rw [objInsert, if_neg h.1, ih h.2]
      rfl

theorem foldl_objInsert_fresh :
    ∀ (ms acc : List (ByteStr × JSONValue)), nodupKeys ms = true →
      (∀ p ∈ ms, hasKey p.1 acc = false) →
      List.foldl (fun o p => objInsert o p.1 p.2) acc ms = acc ++ ms := by
  intro ms
  induction ms with
  | nil => intro acc _ _; simp
  | cons p t ih =>
      intro acc hnd hfresh
      obtain ⟨k, x⟩ := p
      rw [nodupKeys] at hnd
      simp only [Bool.and_eq_true, Bool.not_eq_eq_eq_not, Bool.not_true] at hnd
      rw [List.foldl_cons]
      have hk : hasKey k acc = false := hfresh (k, x) (List.mem_cons_self _ _)
      rw [objInsert_fresh acc k x hk]
      rw [ih (acc ++ [(k, x)]) hnd.2 ?_]
      · simp
      · intro p hp
        rw [hasKey_eq_false_iff]
        intro p' hp'
        rcases List.mem_append.mp hp' with h | h
        · exact (hasKey_eq_false_iff p.1 acc).mp (hfresh p (List.mem_cons_of_mem _ hp)) p' h
        · simp only [List.mem_singleton] at h
          subst h
          have := (hasKey_eq_false_iff k t).mp hnd.1 p hp
          exact fun hkk => this hkk.symm

/-- Rebuilding parsed members through `Insert(pair)` is the identity when
the keys are pairwise distinct. -/
theorem buildObj_id (ms : List (ByteStr × JSONValue)) (h : nodupKeys ms = true) :
    buildObj ms = ms := by
  rw [buildObj, foldl_objInsert_fresh ms [] h (fun p _ => rfl)]
  rfl

/-! ### Parser steps on serialized output -/

theorem pv_step_null (f : Nat) (rest : List Nat) :
    parseValue (f + 1) (110 :: 117 :: 108 :: 108 :: rest) = some (.null, rest) := by
  rw [parseValue, skipWs_cons_nws (by decide)]
  simp [matchLit]

theorem pv_step_true (f : Nat) (rest : List Nat) :
    parseValue (f + 1) (116 :: 114 :: 117 :: 101 :: rest) = some (.bool true, rest) := by
  rw [parseValue, skipWs_cons_nws (by decide)]
  simp [matchLit]

theorem pv_step_false (f : Nat) (rest : List Nat) :
    parseValue (f + 1) (102 :: 97 :: 108 :: 115 :: 101 :: rest)
      = some (.bool false, rest) := by
  rw [parseValue, skipWs_cons_nws (by decide)]
  simp [matchLit]

theorem pv_step_str (f : Nat) (s rest : List Nat) :
    parseValue (f + 1) (strBytes s ++ rest) = some (.str s, rest) := by
  have harg : strBytes s ++ rest = 34 :: (s.flatMap escapeByte ++ 34 :: rest) := by
    simp [strBytes]
  rw [harg, parseValue, skipWs_cons_nws (by decide)]
  simp only [Nat.reduceEqDiff, reduceIte]
  rw [readString_inv]

theorem pv_step_num (q : ℚ) (f : Nat) (rest : List Nat) (hq : finiteDec q = true)
    (hr : numDelimB rest = true) :
    parseValue (f + 1) (numBytes q ++ rest) = some (.number q, rest) := by
  obtain ⟨c, t, hct, hc⟩ := numBytes_head q
  obtain ⟨hws, h110, h116, h102, h34, h91, h123, -, -⟩ := numStart_facts hc
  have harg : numBytes q ++ rest = c :: (t ++ rest) := by rw [hct]; rfl
  rw [harg, parseValue, skipWs_cons_nws hws]
  simp only [if_neg h110, if_neg h116, if_neg h102, if_neg h34, if_neg h91, if_neg h123,
    if_pos (show c = 45 ∨ isDigitB c = true from hc)]
  rw [← harg, parseNumber_inv q hq rest hr]

theorem pv_step_arr_nil (f : Nat) (rest : List Nat) :
    parseValue (f + 1) (91 :: 93 :: rest) = some (.array [], rest) := by
  rw [parseValue, skipWs_cons_nws (by decide)]
  simp only [Nat.reduceEqDiff, reduceIte]
  rw [skipWs_cons_nws (by decide)]
  simp only [Nat.reduceEqDiff, reduceIte]

theorem pv_step_obj_nil (f : Nat) (rest : List Nat) :
    parseValue (f + 1) (123 :: 125 :: rest) = some (.object [], rest) := by
  rw [parseValue, skipWs_cons_nws (by decide)]
  simp only [Nat.reduceEqDiff, reduceIte]
  rw [skipWs_cons_nws (by decide)]
  simp only [Nat.reduceEqDiff, reduceIte]

theorem pv_step_arr (e : JSONValue) (es : List JSONValue) (f : Nat) (rest : List Nat) :
    parseValue (f + 1) (91 :: ((writeValue 0 0 e ++ moreItems 0 0 es) ++ 93 :: rest))
      = (match parseItems f ((writeValue 0 0 e ++ moreItems 0 0 es) ++ 93 :: rest) with
         | some (vs, r') => some (.array vs, r')
         | none => none) := by
  obtain ⟨c, t, hct, hws, h93, -⟩ := writeValue_head 0 0 e
  have hcons : (writeValue 0 0 e ++ moreItems 0 0 es) ++ 93 :: rest
      = c :: (t ++ (moreItems 0 0 es ++ 93 :: rest)) := by
    rw [hct]
    simp
  rw [parseValue, skipWs_cons_nws (by decide)]
  simp only [Nat.reduceEqDiff, reduceIte]
  rw [hcons, skipWs_cons_nws hws]
  simp only [if_neg h93]

theorem pv_step_obj (k : ByteStr) (v : JSONValue) (ms : List (ByteStr × JSONValue))
    (f : Nat) (rest : List Nat) :
    parseValue (f + 1)
        (123 :: ((writeMember 0 0 (k, v) ++ moreMembers 0 0 ms) ++ 125 :: rest))
      = (match parseMembers f ((writeMember 0 0 (k, v) ++ moreMembers 0 0 ms)
            ++ 125 :: rest) with
         | some (ps, r') => some (.object (buildObj ps), r')
         | none => none) := by
  have hcons : (writeMember 0 0 (k, v) ++ moreMembers 0 0 ms) ++ 125 :: rest
      = 34 :: ((k.flatMap escapeByte ++ 34 :: 58 :: writeValue 0 0 v)
          ++ (moreMembers 0 0 ms ++ 125 :: rest)) := by
    rw [wm0]
    simp
  rw [parseValue, skipWs_cons_nws (by decide)]
  simp only [Nat.reduceEqDiff, reduceIte]
  rw [hcons, skipWs_cons_nws (by decide)]
  simp only [Nat.reduceEqDiff, reduceIte]

/-! ### The round-trip, by mutual structural induction on the value tree -/

mutual

theorem rtValue : ∀ (v : JSONValue) (fuel : Nat) (rest : List Nat),
    wf v = true → numsFinite v = true →
    (writeValue 0 0 v).length < fuel → numDelimB rest = true →
    parseValue fuel (writeValue 0 0 v ++ rest) = some (v, rest)
  | .null, fuel, rest, _, _, hf, _ => by
      cases fuel with
      | zero => exact absurd hf (Nat.not_lt_zero _)
      | succ f =>
          rw [writeValue]
          exact pv_step_null f rest
  | .bool true, fuel, rest, _, _, hf, _ => by
      cases fuel with
      | zero => exact absurd hf (Nat.not_lt_zero _)
      | succ f =>
          rw [writeValue]
          exact pv_step_true f rest
  | .bool false, fuel, rest, _, _, hf, _ => by
      cases fuel with
      | zero => exact absurd hf (Nat.not_lt_zero _)
      | succ f =>
          rw [writeValue]
          exact pv_step_false f rest
  | .number q, fuel, rest, _, hnf, hf, hr => by
      cases fuel with
      | zero => exact absurd hf (Nat.not_lt_zero _)
      | succ f =>
          rw [numsFinite] at hnf
          rw [writeValue]
          exact pv_step_num q f rest hnf hr
  | .str s, fuel, rest, _, _, hf, _ => by
      cases fuel with
      | zero => exact absurd hf (Nat.not_lt_zero _)
      | succ f =>
          rw [writeValue]
          exact pv_step_str f s rest
  | .array [], fuel, rest, _, _, hf, _ => by
      cases fuel with
      | zero => exact absurd hf (Nat.not_lt_zero _)
      | succ f =>
          rw [writeValue]
          exact pv_step_arr_nil f rest
  | .array (e :: es), fuel, rest, hwf, hnf, hf, _ => by
      cases fuel with
      | zero => exact absurd hf (Nat.not_lt_zero _)
      | succ f =>
          rw [wf] at hwf
          rw [numsFinite] at hnf
          rw [wv0_array_cons] at hf
          have hfe : (writeValue 0 0 e ++ moreItems 0 0 es).length + 1 < f := by
            simp only [List.length_cons, List.length_append, List.length_singleton] at hf ⊢
            omega
          have key := rtItems e es f rest hwf hnf hfe
          rw [wv0_array_cons]
          have harr : (91 :: (writeValue 0 0 e ++ (moreItems 0 0 es ++ [93]))) ++ rest
              = 91 :: ((writeValue 0 0 e ++ moreItems 0 0 es) ++ 93 :: rest) := by
            simp
          rw [harr, pv_step_arr e es f rest, key]
  | .object [], fuel, rest, _, _, hf, _ => by
      cases fuel with
      | zero => exact absurd hf (Nat.not_lt_zero _)
      | succ f =>
          rw [writeValue]
          exact pv_step_obj_nil f rest
  | .object ((k, v) :: ms), fuel, rest, hwf, hnf, hf, _ => by
      cases fuel with
      | zero => exact absurd hf (Nat.not_lt_zero _)
      | succ f =>
          rw [wf] at hwf
          simp only [Bool.and_eq_true] at hwf
          rw [numsFinite] at hnf
          rw [wv0_object_cons] at hf
          have hfm : (writeMember 0 0 (k, v) ++ moreMembers 0 0 ms).length + 1 < f := by
            simp only [List.length_cons, List.length_append, List.length_singleton] at hf ⊢
            omega
          have key := rtMembers (k, v) ms f rest hwf.2 hnf hfm
          rw [wv0_object_cons]
          have hobj : (123 :: (writeMember 0 0 (k, v) ++ (moreMembers 0 0 ms ++ [125])))
                ++ rest
              = 123 :: ((writeMember 0 0 (k, v) ++ moreMembers 0 0 ms) ++ 125 :: rest) := by
            simp
          rw [hobj, pv_step_obj k v ms f rest, key]
          simp only []
          rw [buildObj_id _ hwf.1]
  termination_by v _ _ _ _ _ _ => sizeOf v

theorem rtItems : ∀ (e : JSONValue) (es : List JSONValue) (fuel : Nat) (rest : List Nat),
    wfItems (e :: es) = true → numsFiniteItems (e :: es) = true →
    (writeValue 0 0 e ++ moreItems 0 0 es).length + 1 < fuel →
    parseItems fuel ((writeValue 0 0 e ++ moreItems 0 0 es) ++ 93 :: rest)
      = some (e :: es, rest)
  | e, [], fuel, rest, hwf, hnf, hf => by
      cases fuel with
      | zero => exact absurd hf (Nat.not_lt_zero _)
      | succ f =>
          rw [wfItems] at hwf
          rw [numsFiniteItems] at hnf
          simp only [Bool.and_eq_true] at hwf hnf
          have hfe : (writeValue 0 0 e).length < f := by
            rw [moreItems] at hf
            simp only [List.length_append, List.length_nil] at hf
            omega
          have hv := rtValue e f (93 :: rest) hwf.1 hnf.1 hfe (by rfl)
          have harg : (writeValue 0 0 e ++ moreItems 0 0 []) ++ 93 :: rest
              = writeValue 0 0 e ++ 93 :: rest := by
            rw [moreItems]
            simp
          rw [harg, parseItems, hv]
          simp only []
          rw [skipWs_cons_nws (by decide)]
          simp only [Nat.reduceEqDiff, reduceIte]
  | e, x :: xs, fuel, rest, hwf, hnf, hf => by
      cases fuel with
      | zero => exact absurd hf (Nat.not_lt_zero _)
      | succ f =>
          rw [wfItems] at hwf
          rw [numsFiniteItems] at hnf
          simp only [Bool.and_eq_true] at hwf hnf
          rw [mi0_cons] at hf
          simp only [List.length_append, List.length_cons] at hf
          have hfe : (writeValue 0 0 e).length < f := by omega
          have hfx : (writeValue 0 0 x ++ moreItems 0 0 xs).length + 1 < f := by
            simp only [List.length_append]
            omega
          have hv := rtValue e f
            (44 :: ((writeValue 0 0 x ++ moreItems 0 0 xs) ++ 93 :: rest))
            hwf.1 hnf.1 hfe (by rfl)
          have key := rtItems x xs f rest hwf.2 hnf.2 hfx
          have harg : (writeValue 0 0 e ++ moreItems 0 0 (x :: xs)) ++ 93 :: rest
              = writeValue 0 0 e
                ++ 44 :: ((writeValue 0 0 x ++ moreItems 0 0 xs) ++ 93 :: rest) := by
            rw [mi0_cons]
            simp
          rw [harg, parseItems, hv]
          simp only []
          rw [skipWs_cons_nws (by decide)]
          simp only [Nat.reduceEqDiff, reduceIte]
          rw [key]
  termination_by e es _ _ _ _ _ => sizeOf e + sizeOf es

theorem rtMembers : ∀ (m : ByteStr × JSONValue) (ms : List (ByteStr × JSONValue))
      (fuel : Nat) (rest : List Nat),
    wfMembers (m :: ms) = true → numsFiniteMembers (m :: ms) = true →
    (writeMember 0 0 m ++ moreMembers 0 0 ms).length + 1 < fuel →
    parseMembers fuel ((writeMember 0 0 m ++ moreMembers 0 0 ms) ++ 125 :: rest)
      = some (m :: ms, rest)
  | (k, v), [], fuel, rest, hwf, hnf, hf => by
      cases fuel with
      | zero => exact absurd hf (Nat.not_lt_zero _)
      | succ f =>
          rw [wfMembers] at hwf
          rw [numsFiniteMembers] at hnf
          simp only [Bool.and_eq_true] at hwf hnf
          have hfe : (writeValue 0 0 v).length < f := by
            rw [wm0, moreMembers] at hf
            simp only [List.length_append, List.length_cons, List.length_nil] at hf
            omega
          have hv := rtValue v f (125 :: rest) hwf.1 hnf.1 hfe (by rfl)
          have harg : (writeMember 0 0 (k, v) ++ moreMembers 0 0 []) ++ 125 :: rest
              = 34 :: (k.flatMap escapeByte
                  ++ 34 :: (58 :: (writeValue 0 0 v ++ 125 :: rest))) := by
            rw [wm0, moreMembers]
            simp
          rw [harg, parseMembers, skipWs_cons_nws (by decide)]
          simp only [Nat.reduceEqDiff, reduceIte]
          rw [readString_inv k (58 :: (writeValue 0 0 v ++ 125 :: rest))]
          simp only []
          rw [skipWs_cons_nws (by decide)]
          simp only [Nat.reduceEqDiff, reduceIte]
          rw [hv]
          simp only []
          rw [skipWs_cons_nws (by decide)]
          simp only [Nat.reduceEqDiff, reduceIte]
  | (k, v), m2 :: ms, fuel, rest, hwf, hnf, hf => by
      cases fuel with
      | zero => exact absurd hf (Nat.not_lt_zero _)
      | succ f =>
          rw [wfMembers] at hwf
          rw [numsFiniteMembers] at hnf
          simp only [Bool.and_eq_true] at hwf hnf
          rw [wm0, mm0_cons] at hf
          simp only [List.length_append, List.length_cons] at hf
          have hfe : (writeValue 0 0 v).length < f := by omega
          have hfx : (writeMember 0 0 m2 ++ moreMembers 0 0 ms).length + 1 < f := by
            simp only [List.length_append]
            omega
          have hv := rtValue v f
            (44 :: ((writeMember 0 0 m2 ++ moreMembers 0 0 ms) ++ 125 :: rest))
            hwf.1 hnf.1 hfe (by rfl)
          have key := rtMembers m2 ms f rest hwf.2 hnf.2 hfx
          have harg : (writeMember 0 0 (k, v) ++ moreMembers 0 0 (m2 :: ms)) ++ 125 :: rest
              = 34 :: (k.flatMap escapeByte ++ 34 :: (58 :: (writeValue 0 0 v
                  ++ 44 :: ((writeMember 0 0 m2 ++ moreMembers 0 0 ms)
                      ++ 125 :: rest)))) := by
            rw [wm0, mm0_cons]
            simp
          rw [harg, parseMembers, skipWs_cons_nws (by decide)]
          simp only [Nat.reduceEqDiff, reduceIte]
          rw [readString_inv k (58 :: (writeValue 0 0 v
              ++ 44 :: ((writeMember 0 0 m2 ++ moreMembers 0 0 ms) ++ 125 :: rest)))]
          simp only []
          rw [skipWs_cons_nws (by decide)]
          simp only [Nat.reduceEqDiff, reduceIte]
          rw [hv]
          simp only []
          rw [skipWs_cons_nws (by decide)]
          simp only [Nat.reduceEqDiff, reduceIte]
          rw [key]
  termination_by m ms _ _ _ _ _ => sizeOf m + sizeOf ms

end

/-! ### Structural equality is reflexive on well-formed values -/

theorem hasKey_of_mem {p : ByteStr × JSONValue} {o : List (ByteStr × JSONValue)}
    (h : p ∈ o) : hasKey p.1 o = true := by
  by_contra hc
  have := (hasKey_eq_false_iff p.1 o).mp (Bool.not_eq_true _ ▸ hc) p h
  exact this rfl

theorem alistFind_self {o : List (ByteStr × JSONValue)} (hnd : nodupKeys o = true) :
    ∀ p ∈ o, alistFind p.1 o = some p.2 := by
  induction o with
  | nil => intro p hp; cases hp
  | cons q t ih =>
      obtain ⟨k, x⟩ := q
      rw [nodupKeys] at hnd
      simp only [Bool.and_eq_true, Bool.not_eq_eq_eq_not, Bool.not_true] at hnd
      intro p hp
      rcases List.mem_cons.mp hp with rfl | hp'
      · rw [alistFind, if_pos rfl]
      · have hk : k ≠ p.1 := by
          intro hkk
          have := (hasKey_eq_false_iff k t).mp hnd.1 p hp'
          exact this hkk.symm
        rw [alistFind, if_neg hk]
        exact ih hnd.2 p hp'

mutual

theorem jsonEquals_refl : ∀ v : JSONValue, wf v = true → jsonEquals v v = true
  | .null, _ => rfl
  | .bool b, _ => by
      rw [jsonEquals]
      simp
  | .number q, _ => by
      rw [jsonEquals]
      simp
  | .str s, _ => by
      rw [jsonEquals]
      simp
  | .array a, h => by
      rw [jsonEquals]
      rw [wf] at h
      exact eqItems_refl a h
  | .object o, h => by
      rw [jsonEquals]
      rw [wf] at h
      simp only [Bool.and_eq_true] at h
      rw [subMembers_from o o h.2 (alistFind_self h.1), Bool.true_and,
        List.all_eq_true]
      intro p hp
      simpa using hasKey_of_mem hp
  termination_by v _ => sizeOf v

theorem eqItems_refl : ∀ l : List JSONValue, wfItems l = true → eqItems l l = true
  | [], _ => rfl
  | x :: xs, h => by
      rw [eqItems]
      rw [wfItems] at h
      simp only [Bool.and_eq_true] at h ⊢
      exact ⟨jsonEquals_refl x h.1, eqItems_refl xs h.2⟩
  termination_by l _ => sizeOf l

theorem subMembers_from : ∀ (t o : List (ByteStr × JSONValue)),
    wfMembers t = true → (∀ p ∈ t, alistFind p.1 o = some p.2) →
    subMembers t o = true
  | [], _, _, _ => rfl
  | (k, x) :: t, o, hwf, hfind => by
      rw [subMembers]
      rw [wfMembers] at hwf
      simp only [Bool.and_eq_true] at hwf ⊢
      constructor
      · rw [hfind (k, x) (List.mem_cons_self _ _)]
        exact jsonEquals_refl x hwf.1
      · exact subMembers_from t o hwf.2
          (fun p hp => hfind p (List.mem_cons_of_mem _ hp))
  termination_by t _ _ _ => sizeOf t

end

/-! ### The character reader `NextChar` -/

theorem nextCharAux_spec (buf : List Nat) (skip : Bool) :
    ∀ (fuel pos endp : Nat), pos + fuel = endp →
    (pos ≤ (nextCharAux buf skip fuel pos endp).2
      ∧ (nextCharAux buf skip fuel pos endp).2 ≤ endp)
    ∧ ((nextCharAux buf skip fuel pos endp).1 = none →
        (nextCharAux buf skip fuel pos endp).2 = endp
        ∧ ∀ i, pos ≤ i → i < endp → skip = true ∧ sbyte (buf.getD i 0) ≤ 32)
    ∧ (∀ b, (nextCharAux buf skip fuel pos endp).1 = some b →
        pos < (nextCharAux buf skip fuel pos endp).2
        ∧ buf.getD ((nextCharAux buf skip fuel pos endp).2 - 1) 0 = b
        ∧ (skip = true → 32 < sbyte b)
        ∧ (∀ i, pos ≤ i → i + 1 < (nextCharAux buf skip fuel pos endp).2 →
            sbyte (buf.getD i 0) ≤ 32)
        ∧ (skip = false → (nextCharAux buf skip fuel pos endp).2 = pos + 1)) := by
  intro fuel
  induction fuel with
  | zero =>
      intro pos endp hpe
      rw [nextCharAux]
      refine ⟨⟨le_refl _, by omega⟩, ?_, ?_⟩
      · intro _
        exact ⟨by omega, fun i h1 h2 => by omega⟩
      · intro b hb
        cases hb
  | succ f ih =>
      intro pos endp hpe
      rw [nextCharAux, if_pos (show pos < endp by omega)]
      by_cases hcond : (!skip || decide (32 < sbyte (buf.getD pos 0))) = true
      · rw [if_pos hcond]
        refine ⟨⟨by omega, by omega⟩, ?_, ?_⟩
        · intro h
          cases h
        · intro b hb
          simp only [Option.some.injEq] at hb
          subst hb
          refine ⟨by omega, by simp, ?_, ?_, by intro _; rfl⟩
          · intro hskip
            subst hskip
            simp only [Bool.not_true, Bool.false_or, decide_eq_true_eq] at hcond
            exact hcond
          · intro i h1 h2
            omega
      · rw [if_neg hcond]
        have hsk : skip = true ∧ sbyte (buf.getD pos 0) ≤ 32 := by
          cases skip with
          | false => simp at hcond
          | true =>
              simp only [Bool.not_true, Bool.false_or, decide_eq_true_eq, not_lt] at hcond
              exact ⟨rfl, by simpa using hcond⟩
        obtain ⟨⟨ihb1, ihb2⟩, ihnone, ihsome⟩ := ih (pos + 1) endp (by omega)
        refine ⟨⟨by omega, ihb2⟩, ?_, ?_⟩
        · intro h
          obtain ⟨he, hws⟩ := ihnone h
          refine ⟨he, fun i h1 h2 => ?_⟩
          rcases Nat.eq_or_lt_of_le h1 with rfl | h1'
          · exact ⟨hsk.1, hsk.2⟩
          · exact hws i h1' h2
        · intro b hb
          obtain ⟨h1, h2, h3, h4, h5⟩ := ihsome b hb
          refine ⟨by omega, h2, h3, ?_, ?_⟩
          · intro i hi1 hi2
            rcases Nat.eq_or_lt_of_le hi1 with rfl | hi1'
            · exact hsk.2
            · exact h4 i hi1' hi2
          · intro hf
            rw [hf] at hsk
            cases hsk.1

theorem nextCharAux_frame (buf buf' : List Nat) (skip : Bool) :
    ∀ (fuel pos endp : Nat), pos + fuel = endp →
    (∀ i, pos ≤ i → i < endp → buf'.getD i 0 = buf.getD i 0) →
    nextCharAux buf' skip fuel pos endp = nextCharAux buf skip fuel pos endp := by
  intro fuel
  induction fuel with
  | zero =>
      intro pos endp _ _
      rw [nextCharAux, nextCharAux]
  | succ f ih =>
      intro pos endp hpe hframe
      rw [nextCharAux, nextCharAux, if_pos (show pos < endp by omega),
        if_pos (show pos < endp by omega), hframe pos (le_refl _) (by omega)]
      by_cases hcond : (!skip || decide (32 < sbyte (buf.getD pos 0))) = true
      · rw [if_pos hcond, if_pos hcond]
      · rw [if_neg hcond, if_neg hcond]
        exact ih (pos + 1) endp (by omega) (fun i hi1 hi2 => hframe i (by omega) hi2)

/-! ### Key uniqueness and well-formedness of the mutating operations -/

theorem hasKey_objInsert (a k : ByteStr) (x : JSONValue)
    (o : List (ByteStr × JSONValue)) :
    hasKey a (objInsert o k x) = (hasKey a o || decide (k = a)) := by
  induction o with
  | nil => simp [objInsert, hasKey]
  | cons p t ih =>
      obtain ⟨k', y⟩ := p
      by_cases hk : k' = k
      · subst hk
        rw [objInsert, if_pos rfl, hasKey, hasKey]
        by_cases ha : k' = a
        · subst ha; simp
        · simp [ha]
      · rw [objInsert, if_neg hk, hasKey, hasKey, ih]
        by_cases ha : k' = a
        · subst ha; simp
        · simp [ha, Bool.or_assoc]

theorem objInsert_nodup (o : List (ByteStr × JSONValue)) (k : ByteStr)
    (x : JSONValue) (h : nodupKeys o = true) :
    nodupKeys (objInsert o k x) = true := by
  induction o with
  | nil => simp [objInsert, nodupKeys, hasKey]
  | cons p t ih =>
      obtain ⟨k', y⟩ := p
      rw [nodupKeys] at h
      simp only [Bool.and_eq_true, Bool.not_eq_eq_eq_not, Bool.not_true] at h
      by_cases hk : k' = k
      · subst hk
        rw [objInsert, if_pos rfl, nodupKeys]
        simp [h.1, h.2]
      · rw [objInsert, if_neg hk, nodupKeys, ih h.2, hasKey_objInsert]
        simp only [h.1, Bool.false_or, Bool.and_true, Bool.not_eq_eq_eq_not,
          Bool.not_true, decide_eq_false_iff_not]
        exact fun hkk => hk hkk.symm

theorem countKey_eq_zero {k : ByteStr} {o : List (ByteStr × JSONValue)}
    (h : hasKey k o = false) : countKey k o = 0 := by
  induction o with
  | nil => rfl
  | cons p t ih =>
      rw [hasKey] at h
      simp only [Bool.or_eq_false_iff, decide_eq_false_iff_not] at h
      rw [countKey, List.filter_cons]
      simp only [decide_eq_true_eq]
      rw [if_neg (by simpa using fun hkk : p.1 = k => h.1 hkk)]
      exact ih h.2

theorem countKey_objInsert (o : List (ByteStr × JSONValue)) (k : ByteStr)
    (x : JSONValue) (h : nodupKeys o = true) :
    countKey k (objInsert o k x) = 1 := by
  induction o with
  | nil => simp [objInsert, countKey]
  | cons p t ih =>
      obtain ⟨k', y⟩ := p
      rw [nodupKeys] at h
      simp only [Bool.and_eq_true, Bool.not_eq_eq_eq_not, Bool.not_true] at h
      by_cases hk : k' = k
      · subst hk
        rw [objInsert, if_pos rfl, countKey, List.filter_cons]
        simp only [decide_eq_true_eq, if_pos rfl]
        have : countKey k' t = 0 := countKey_eq_zero h.1
        rw [countKey] at this
        simp [this]
      · rw [objInsert, if_neg hk, countKey, List.filter_cons]
        simp only [decide_eq_true_eq]
        rw [if_neg (by simpa using hk)]
        exact ih h.2

theorem alistFind_objInsert (o : List (ByteStr × JSONValue)) (k : ByteStr)
    (x : JSONValue) : alistFind k (objInsert o k x) = some x := by
  induction o with
  | nil => simp [objInsert, alistFind]
  | cons p t ih =>
      obtain ⟨k', y⟩ := p
      by_cases hk : k' = k
      · subst hk
        rw [objInsert, if_pos rfl, alistFind, if_pos rfl]
      · rw [objInsert, if_neg hk, alistFind, if_neg hk]
        exact ih

theorem wfItems_iff (l : List JSONValue) :
    wfItems l = true ↔ ∀ x ∈ l, wf x = true := by
  induction l with
  | nil => simp [wfItems]
  | cons x xs ih =>
      rw [wfItems]
      simp only [Bool.and_eq_true, ih, List.mem_cons]
      constructor
      · rintro ⟨h1, h2⟩ y (rfl | hy)
        · exact h1
        · exact h2 y hy
      · intro h
        exact ⟨h x (Or.inl rfl), fun y hy => h y (Or.inr hy)⟩

theorem wfMembers_iff (l : List (ByteStr × JSONValue)) :
    wfMembers l = true ↔ ∀ p ∈ l, wf p.2 = true := by
  induction l with
  | nil => simp [wfMembers]
  | cons p t ih =>
      obtain ⟨k, x⟩ := p
      rw [wfMembers]
      simp only [Bool.and_eq_true, ih, List.mem_cons]
      constructor
      · rintro ⟨h1, h2⟩ q hq
        rcases hq with rfl | hq
        · exact h1
        · exact h2 q hq
      · intro h
        exact ⟨h (k, x) (Or.inl rfl), fun q hq => h q (Or.inr hq)⟩

theorem wfItems_getArray {v : JSONValue} (h : wf v = true) :
    wfItems (getArray v) = true := by
  cases v <;> simp [getArray, emptyJSONArray, wfItems] <;> rw [wf] at h <;> exact h

theorem wf_getObject {v : JSONValue} (h : wf v = true) :
    nodupKeys (getObject v) = true ∧ wfMembers (getObject v) = true := by
  cases v <;> simp [getObject, emptyJSONObject, nodupKeys, wfMembers] <;>
    (rw [wf] at h; simp only [Bool.and_eq_true] at h; exact h)

theorem mem_objInsert {p : ByteStr × JSONValue} {o : List (ByteStr × JSONValue)}
    {k : ByteStr} {x : JSONValue} (h : p ∈ objInsert o k x) :
    p ∈ o ∨ p.2 = x := by
  induction o with
  | nil =>
      simp only [objInsert, List.mem_singleton] at h
      subst h
      exact Or.inr rfl
  | cons q t ih =>
      obtain ⟨k', y⟩ := q
      by_cases hk : k' = k
      · subst hk
        rw [objInsert, if_pos rfl] at h
        rcases List.mem_cons.mp h with rfl | h'
        · exact Or.inr rfl
        · exact Or.inl (List.mem_cons_of_mem _ h')
      · rw [objInsert, if_neg hk] at h
        rcases List.mem_cons.mp h with rfl | h'
        · exact Or.inl (List.mem_cons_self _ _)
        · rcases ih h' with h'' | h''
          · exact Or.inl (List.mem_cons_of_mem _ h'')
          · exact Or.inr h''

theorem hasKey_filter {a : ByteStr} {p : ByteStr × JSONValue → Bool}
    {o : List (ByteStr × JSONValue)} (h : hasKey a (o.filter p) = true) :
    hasKey a o = true := by
  induction o with
  | nil => simpa [hasKey] using h
  | cons q t ih =>
      rw [List.filter_cons] at h
      rw [hasKey]
      by_cases hp : p q = true
      · rw [if_pos hp, hasKey] at h
        rcases Bool.or_eq_true_iff.mp h with h' | h'
        · rw [h']
          simp
        · rw [ih h']
          simp
      · rw [if_neg hp] at h
        rw [ih h]
        simp

theorem nodupKeys_filter (p : ByteStr × JSONValue → Bool)
    (o : List (ByteStr × JSONValue)) (h : nodupKeys o = true) :
    nodupKeys (o.filter p) = true := by
  induction o with
  | nil => simpa [nodupKeys] using h
  | cons q t ih =>
      rw [nodupKeys] at h
      simp only [Bool.and_eq_true, Bool.not_eq_eq_eq_not, Bool.not_true] at h
      rw [List.filter_cons]
      by_cases hp : p q = true
      · rw [if_pos hp, nodupKeys, ih h.2]
        have : hasKey q.1 (t.filter p) = false := by
          by_contra hc
          rw [Bool.not_eq_false] at hc
          rw [hasKey_filter hc] at h
          cases h.1
        simp [this]
      · rw [if_neg hp]
        exact ih h.2

/-! ## The claims -/

/-- C1: for every Value tree `v` built programmatically that contains no NaN
or Infinity numbers — in this embedding: every object node has unique keys,
as the building API guarantees, and every number payload has a finite
decimal expansion, as every finite double does — parsing the compact
serialization of `v` succeeds and yields a Value structurally equal to `v`:
`Parse(Serialize(v, 0)) == v`, where `==` is structural equality (same type,
equal scalar payloads, arrays pairwise equal in order, objects equal as
key-value sets). -/
theorem claim_C1_parse_serialize_roundtrip (v : JSONValue)
    (hwf : wf v = true) (hnf : numsFinite v = true) :
    ∃ w, fromString (toText v 0) = some w ∧ jsonEquals w v = true := by
  refine ⟨v, ?_, jsonEquals_refl v hwf⟩
  rw [fromString, toText]
  have hv := rtValue v (2 * (writeValue 0 0 v).length + 2) [] hwf hnf (by omega) rfl
  simp only [List.append_nil] at hv
  rw [hv]

/-- C1 witness: the round-trip at a concrete tree with an object, an array,
a fractional number, a boolean, null, and a string with a control byte, a
quote and a non-ASCII byte. -/
theorem claim_C1_witness :
    wf (JSONValue.object [([97], .number 5),
      ([98], .array [.null, .bool true, .number (mkRat 3 2),
        .str [104, 10, 34, 200]])]) = true
    ∧ numsFinite (JSONValue.object [([97], .number 5),
      ([98], .array [.null, .bool true, .number (mkRat 3 2),
        .str [104, 10, 34, 200]])]) = true
    ∧ ∃ w, fromString (toText (JSONValue.object [([97], .number 5),
        ([98], .array [.null, .bool true, .number (mkRat 3 2),
          .str [104, 10, 34, 200]])]) 0) = some w
        ∧ jsonEquals w (JSONValue.object [([97], .number 5),
            ([98], .array [.null, .bool true, .number (mkRat 3 2),
              .str [104, 10, 34, 200]])]) = true :=
  ⟨by decide, by decide,
    claim_C1_parse_serialize_roundtrip _ (by decide) (by decide)⟩

/-- C2: the typed getters never fail and return the type-appropriate zero
value on mismatch — `GetBool` the boolean payload or `false`, `GetNumber`
the number payload or `0.0`, `GetString` the string payload or the empty
string, `GetArray` the array payload or the shared empty array, `GetObject`
the object payload or the shared empty object.  The embedding is pure, so
no getter can modify its receiver. -/
theorem claim_C2_typed_getters_total :
    (∀ b, getBool (.bool b) = b)
    ∧ (∀ v, isBool v = false → getBool v = false)
    ∧ (∀ q, getNumber (.number q) = q)
    ∧ (∀ v, isNumber v = false → getNumber v = 0)
    ∧ (∀ s, getString (.str s) = s)
    ∧ (∀ v, isString v = false → getString v = [])
    ∧ (∀ a, getArray (.array a) = a)
    ∧ (∀ v, isArray v = false → getArray v = emptyJSONArray)
    ∧ (∀ o, getObject (.object o) = o)
    ∧ (∀ v, isObject v = false → getObject v = emptyJSONObject) := by
  refine ⟨fun b => rfl, ?_, fun q => rfl, ?_, fun s => rfl, ?_, fun a => rfl, ?_,
    fun o => rfl, ?_⟩ <;>
    (intro v h; cases v <;> first | rfl | (exfalso; simp [isBool, isNumber,
      isString, isArray, isObject, typeOf] at h))

/-- C2 witness: the getters at a number value, where every non-number read
degrades to its zero value. -/
theorem claim_C2_witness :
    isBool (JSONValue.number 5) = false
    ∧ getBool (JSONValue.number 5) = false := by
  refine ⟨by decide, ?_⟩
  exact claim_C2_typed_getters_total.2.1 (JSONValue.number 5) (by decide)

/-- C3: the non-const indexing operators are coercive: writing through
`v[i]` on a non-array first resets `v` to an empty array, discarding its
payload, and writing through `v[key]` on a non-object first resets `v` to
an empty object; starting from Null, `v["a"][0] = 5` leaves an object whose
`"a"` member is an array whose element 0 is the number 5. -/
theorem claim_C3_coercive_indexing :
    (∀ (v : JSONValue) (i : Nat) (f : JSONValue → JSONValue),
        isArray v = false → updIdx v i f = updIdx (.array []) i f)
    ∧ (∀ (v : JSONValue) (k : ByteStr) (f : JSONValue → JSONValue),
        isObject v = false → updKey v k f = updKey (.object []) k f)
    ∧ (isObject (updKey .null [97]
        (fun hole => updIdx hole 0 (fun _ => .number 5))) = true
      ∧ isArray (constKey (updKey .null [97]
          (fun hole => updIdx hole 0 (fun _ => .number 5))) [97]) = true
      ∧ getNumber (constIdx (constKey (updKey .null [97]
          (fun hole => updIdx hole 0 (fun _ => .number 5))) [97]) 0) = 5) := by
  refine ⟨?_, ?_, rfl, rfl, rfl⟩
  · intro v i f h
    cases v <;> first | rfl | (exfalso; simp [isArray, typeOf] at h)
  · intro v k f h
    cases v <;> first | rfl | (exfalso; simp [isObject, typeOf] at h)

/-- C3 witness: coercion of a string value under array indexing. -/
theorem claim_C3_witness :
    isArray (JSONValue.str [120]) = false
    ∧ updIdx (JSONValue.str [120]) 0 (fun _ => .number 7)
        = updIdx (.array []) 0 (fun _ => .number 7) :=
  ⟨by decide, claim_C3_coercive_indexing.1 (JSONValue.str [120]) 0
    (fun _ => .number 7) (by decide)⟩

/-- C4: const indexing never coerces: on a non-array receiver or an
out-of-range index, and on a non-object receiver or a missing key, it
returns the shared immutable `EMPTY` sentinel; the embedding is pure, so
the receiver is unchanged by construction. -/
theorem claim_C4_const_indexing_sentinel :
    (∀ (v : JSONValue) (i : Nat), isArray v = false → constIdx v i = EMPTY)
    ∧ (∀ (a : List JSONValue) (i : Nat), a.length ≤ i → constIdx (.array a) i = EMPTY)
    ∧ (∀ (v : JSONValue) (k : ByteStr), isObject v = false → constKey v k = EMPTY)
    ∧ (∀ (o : List (ByteStr × JSONValue)) (k : ByteStr), alistFind k o = none →
        constKey (.object o) k = EMPTY) := by
  refine ⟨?_, ?_, ?_, ?_⟩
  · intro v i h
    cases v <;> first | rfl | (exfalso; simp [isArray, typeOf] at h)
  · intro a i h
    rw [constIdx, List.getD_eq_default _ _ h]
  · intro v k h
    cases v <;> first | rfl | (exfalso; simp [isObject, typeOf] at h)
  · intro o k h
    rw [constKey, h]
    rfl

/-- C4 witness: const indexing a boolean value and a short array out of
range, and a missing key. -/
theorem claim_C4_witness :
    isArray (JSONValue.bool true) = false
    ∧ constIdx (JSONValue.bool true) 3 = EMPTY
    ∧ (List.length [JSONValue.null] ≤ 5
      ∧ constIdx (.array [JSONValue.null]) 5 = EMPTY) :=
  ⟨by decide,
    claim_C4_const_indexing_sentinel.1 (JSONValue.bool true) 3 (by decide),
    by decide,
    claim_C4_const_indexing_sentinel.2.1 [JSONValue.null] 5 (by decide)⟩

/-- C5 counterexample: the claim says `Push` leaves a non-array receiver
entirely unchanged, but JSON.h documents `Push` as "Becomes an array if was
not before": pushing onto a Null value turns it into a one-element array. -/
theorem claim_C5_counterexample :
    push JSONValue.null (JSONValue.bool true) ≠ JSONValue.null := by
  simp [push, getArray, emptyJSONArray]

/-- C5 amended: `Pop`, `Erase(pos, length)` and `Erase(key)` are no-ops on
a receiver of the wrong container type, but `Push`, `Insert(index, value)`
and `Insert(pair)` are not: they coerce a mismatched receiver to the
matching container type first ("Becomes an array/object if was not
before"), like the indexing operators. -/
theorem claim_C5_mutators_amended :
    (∀ (v : JSONValue) (pos len : Nat), isArray v = false →
        pop v = v ∧ eraseAt v pos len = v)
    ∧ (∀ (v : JSONValue) (k : ByteStr), isObject v = false → eraseKey v k = v)
    ∧ (∀ (v x : JSONValue) (i : Nat), isArray v = false →
        push v x = .array [x] ∧ insertAt v i x = .array [x])
    ∧ (∀ (v x : JSONValue) (k : ByteStr), isObject v = false →
        insertPair v k x = .object [(k, x)]) := by
  refine ⟨?_, ?_, ?_, ?_⟩
  · intro v pos len h
    cases v <;> first
      | exact ⟨rfl, rfl⟩
      | (exfalso; simp [isArray, typeOf] at h)
  · intro v k h
    cases v <;> first | rfl | (exfalso; simp [isObject, typeOf] at h)
  · intro v x i h
    cases v <;> first
      | exact ⟨rfl, by simp [insertAt, getArray, emptyJSONArray]⟩
      | (exfalso; simp [isArray, typeOf] at h)
  · intro v x k h
    cases v <;> first | rfl | (exfalso; simp [isObject, typeOf] at h)

/-- C5 witness: `Pop` on a number is a no-op, while `Push` onto it coerces
it to an array. -/
theorem claim_C5_witness :
    isArray (JSONValue.number 3) = false
    ∧ (pop (JSONValue.number 3) = JSONValue.number 3
      ∧ eraseAt (JSONValue.number 3) 0 1 = JSONValue.number 3) :=
  ⟨by decide, claim_C5_mutators_amended.1 (JSONValue.number 3) 0 1 (by decide)⟩

/-- C6: `Size()` returns 0 and `IsEmpty()` returns false on every value
that is neither an array nor an object; in particular a Number value is not
"empty", its size is 0, its string read is the empty string and its array
read is the shared empty array. -/
theorem claim_C6_size_isEmpty_noncontainer :
    (∀ v : JSONValue, isArray v = false → isObject v = false →
        size v = 0 ∧ isEmpty v = false)
    ∧ (∀ q : ℚ, isEmpty (.number q) = false ∧ size (.number q) = 0
        ∧ getString (.number q) = [] ∧ (getArray (.number q)).length = 0) := by
  refine ⟨?_, fun q => ⟨rfl, rfl, rfl, rfl⟩⟩
  intro v ha ho
  cases v <;> first
    | exact ⟨rfl, rfl⟩
    | (exfalso; simp [isArray, isObject, typeOf] at ha ho)

/-- C6 witness: size and emptiness of a string value. -/
theorem claim_C6_witness :
    isArray (JSONValue.str [104, 105]) = false
    ∧ isObject (JSONValue.str [104, 105]) = false
    ∧ (size (JSONValue.str [104, 105]) = 0
      ∧ isEmpty (JSONValue.str [104, 105]) = false) :=
  ⟨by decide, by decide,
    claim_C6_size_isEmpty_noncontainer.1 (JSONValue.str [104, 105])
      (by decide) (by decide)⟩

/-- C7 counterexample: the claim says a byte is consumed as whitespace if
and only if its value is at most 0x20, but `char` is signed: the byte 0xC8
(200 > 0x20) reads as a negative `char`, so `NextChar` with whitespace
skipping consumes it instead of delivering it. -/
theorem claim_C7_counterexample :
    32 < 200 ∧ nextChar [200] true 0 1 = (none, 1) := by
  decide

/-- C7 amended: a byte is consumed as insignificant whitespace before a
token if and only if its signed char value is at most 0x20 — that is, the
byte is `≤ 0x20` or `≥ 0x80`; every byte in `(0x20, 0x80)` is delivered to
the token dispatcher as the start of the next token. -/
theorem claim_C7_whitespace_amended (buf : List Nat) (pos endp b : Nat)
    (hlt : pos < endp) (hb : buf.getD pos 0 = b) (hb256 : b < 256) :
    (wsByte b = true ↔ (b ≤ 32 ∨ 128 ≤ b))
    ∧ (wsByte b = false → nextChar buf true pos endp = (some b, pos + 1))
    ∧ (wsByte b = true → nextChar buf true pos endp
        = nextChar buf true (pos + 1) endp) := by
  have hiff : wsByte b = true ↔ (b ≤ 32 ∨ 128 ≤ b) := by
    rw [wsByte, sbyte]
    by_cases h128 : b < 128
    · rw [if_pos h128]
      simp only [decide_eq_true_eq]
      constructor
      · intro h
        exact Or.inl (by exact_mod_cast h)
      · intro h
        rcases h with h | h
        · exact_mod_cast h
        · omega
    · rw [if_neg h128]
      simp only [decide_eq_true_eq]
      constructor
      · intro _
        exact Or.inr (by omega)
      · intro _
        omega
  have hfe : endp - pos = (endp - (pos + 1)) + 1 := by omega
  refine ⟨hiff, ?_, ?_⟩
  · intro hws
    rw [nextChar, hfe, nextCharAux, if_pos hlt, hb,
      if_pos (by simp only [wsByte, decide_eq_false_iff_not, not_le] at hws; simp [hws])]
  · intro hws
    rw [nextChar, hfe, nextCharAux, if_pos hlt, hb,
      if_neg (by simp only [wsByte, decide_eq_true_eq] at hws; simp; omega), nextChar]

/-- C7 witness: byte 0xC8 satisfies the amended condition, being skipped as
whitespace. -/
theorem claim_C7_witness :
    wsByte 200 = true
    ∧ nextChar [200] true 0 1 = nextChar [200] true 1 1 :=
  ⟨by decide, (claim_C7_whitespace_amended [200] 0 1 200 (by decide) (by decide)
    (by decide)).2.2 (by decide)⟩

/-- C8: object keys are unique and the invariant is preserved by every
operation — inserting preserves key uniqueness, inserting an existing key
overwrites the value and leaves exactly one entry with that key, every
mutating operation preserves well-formedness of the whole tree, and
inserting `"a" ↦ 1` then `"a" ↦ 2` leaves exactly one key `"a"`, mapped to
2. -/
theorem claim_C8_object_key_uniqueness :
    (∀ (o : List (ByteStr × JSONValue)) (k : ByteStr) (x : JSONValue),
        nodupKeys o = true →
        nodupKeys (objInsert o k x) = true ∧ countKey k (objInsert o k x) = 1
          ∧ alistFind k (objInsert o k x) = some x)
    ∧ (∀ (v x : JSONValue) (k : ByteStr) (i pos len : Nat),
        wf v = true → wf x = true →
        wf (push v x) = true ∧ wf (insertAt v i x) = true ∧ wf (pop v) = true
          ∧ wf (eraseAt v pos len) = true ∧ wf (insertPair v k x) = true
          ∧ wf (eraseKey v k) = true ∧ wf (clear v) = true
          ∧ wf (setEmptyArray v) = true ∧ wf (setEmptyObject v) = true
          ∧ wf (setNull v) = true)
    ∧ insertPair (insertPair (.object []) [97] (.number 1)) [97] (.number 2)
        = .object [([97], .number 2)] := by
  refine ⟨?_, ?_, rfl⟩
  · intro o k x h
    exact ⟨objInsert_nodup o k x h, countKey_objInsert o k x h,
      alistFind_objInsert o k x⟩
  · intro v x k i pos len hv hx
    have harr := wfItems_getArray hv
    have hobj := wf_getObject hv
    refine ⟨?_, ?_, ?_, ?_, ?_, ?_, ?_, rfl, rfl, rfl⟩
    · rw [push, wf, wfItems_iff]
      intro y hy
      rcases List.mem_append.mp hy with h | h
      · exact (wfItems_iff _).mp harr y h
      · simp only [List.mem_singleton] at h
        subst h
        exact hx
    · rw [insertAt, wf, wfItems_iff]
      intro y hy
      rcases List.mem_append.mp hy with h | h
      · exact (wfItems_iff _).mp harr y ((List.take_sublist _ _).mem h)
      · rcases List.mem_cons.mp h with rfl | h'
        · exact hx
        · exact (wfItems_iff _).mp harr y ((List.drop_sublist _ _).mem h')
    · cases v <;> first
        | exact hv
        | (rw [pop, wf, wfItems_iff]
           intro y hy
           rw [wf] at hv
           exact (wfItems_iff _).mp hv y ((List.dropLast_sublist _).mem hy))
    · cases v <;> first
        | exact hv
        | (rw [eraseAt, wf, wfItems_iff]
           intro y hy
           rw [wf] at hv
           rcases List.mem_append.mp hy with h | h
           · exact (wfItems_iff _).mp hv y ((List.take_sublist _ _).mem h)
           · exact (wfItems_iff _).mp hv y ((List.drop_sublist _ _).mem h))
    · rw [insertPair, wf]
      simp only [Bool.and_eq_true]
      refine ⟨objInsert_nodup _ k x hobj.1, (wfMembers_iff _).mpr ?_⟩
      intro p hp
      rcases mem_objInsert hp with h | h
      · exact (wfMembers_iff _).mp hobj.2 p h
      · rw [h]
        exact hx
    · cases v <;> first
        | exact hv
        | (rw [eraseKey, wf]
           simp only [Bool.and_eq_true]
           rw [wf] at hv
           simp only [Bool.and_eq_true] at hv
           refine ⟨nodupKeys_filter _ _ hv.1, (wfMembers_iff _).mpr ?_⟩
           intro p hp
           exact (wfMembers_iff _).mp hv.2 p (List.mem_of_mem_filter hp))
    · cases v <;> rfl

/-- C8 witness: inserting a fresh key into a one-entry object keeps the
keys unique and maps the key to the inserted value. -/
theorem claim_C8_witness :
    nodupKeys [([97], JSONValue.number 1)] = true
    ∧ (nodupKeys (objInsert [([97], JSONValue.number 1)] [98] (.bool true)) = true
      ∧ countKey [98] (objInsert [([97], JSONValue.number 1)] [98] (.bool true)) = 1
      ∧ alistFind [98] (objInsert [([97], JSONValue.number 1)] [98] (.bool true))
          = some (.bool true)) :=
  ⟨by decide, claim_C8_object_key_uniqueness.1 [([97], JSONValue.number 1)]
    [98] (.bool true) (by decide)⟩

/-- C9: serialization is total over the Value domain: `ToString` is a total
function (a Lean `def`, terminating by construction) that never fails and
produces a nonempty text output for every value and every spacing and
indent setting. -/
theorem claim_C9_serializer_total :
    ∀ (v : JSONValue) (sp ind : Nat),
      writeValue sp ind v ≠ [] ∧ toText v sp = writeValue sp 0 v := by
  intro v sp ind
  refine ⟨?_, rfl⟩
  obtain ⟨c, t, hct, -, -, -⟩ := writeValue_head sp ind v
  rw [hct]
  simp

/-- C10: `NextChar` on a buffer with `pos ≤ end` never examines a byte at
or beyond `end` (its result depends only on the bytes in `[pos, end)`),
advances the cursor by exactly one per examined byte so the cursor stays in
`[pos, end]` and is strictly monotone on delivery, returns a byte exactly
when one was delivered (with whitespace skipping: a byte whose signed char
value exceeds 0x20, every byte skipped before it reading as whitespace),
and on failure the cursor has reached `end`. -/
theorem claim_C10_nextchar_safe (buf buf' : List Nat) (skip : Bool)
    (pos endp : Nat) (hpe : pos ≤ endp) :
    (pos ≤ (nextChar buf skip pos endp).2 ∧ (nextChar buf skip pos endp).2 ≤ endp)
    ∧ ((nextChar buf skip pos endp).1 = none → (nextChar buf skip pos endp).2 = endp
        ∧ ∀ i, pos ≤ i → i < endp → skip = true ∧ sbyte (buf.getD i 0) ≤ 32)
    ∧ (∀ b, (nextChar buf skip pos endp).1 = some b →
        pos < (nextChar buf skip pos endp).2
        ∧ buf.getD ((nextChar buf skip pos endp).2 - 1) 0 = b
        ∧ (skip = true → 32 < sbyte b)
        ∧ (∀ i, pos ≤ i → i + 1 < (nextChar buf skip pos endp).2 →
            sbyte (buf.getD i 0) ≤ 32)
        ∧ (skip = false → (nextChar buf skip pos endp).2 = pos + 1))
    ∧ ((∀ i, pos ≤ i → i < endp → buf'.getD i 0 = buf.getD i 0) →
        nextChar buf' skip pos endp = nextChar buf skip pos endp) := by
  have h1 := nextCharAux_spec buf skip (endp - pos) pos endp (by omega)
  have h2 := nextCharAux_frame buf buf' skip (endp - pos) pos endp (by omega)
  rw [nextChar]
  exact ⟨h1.1, h1.2.1, h1.2.2, fun hf => h2 hf⟩

/-- C10 witness: the reader at a one-byte buffer holding the letter `A`. -/
theorem claim_C10_witness :
    (0 : Nat) ≤ 1 ∧ (nextChar [65] true 0 1).2 ≤ 1 :=
  ⟨by decide, (claim_C10_nextchar_safe [65] [65] true 0 1 (by decide)).1.2⟩

end Tundra
